import Mathlib

/-!
# Least-squares polynomial fit (`hw4/src/fit_polynomial.c`)

A shallow embedding of the numerical pipeline of `main`: the design matrix
fill, the normal equations `A = XᵗX`, `P = Xᵗy`, the Cholesky factorization,
the two triangular solves, the predictions, the rescale/write-out pass and the
`R²` statistic.

Conventions of the embedding.

* Arithmetic is exact: every `double`/`float` is an element of an ordered
  field `K` (the definitions run on `ℚ`, the theorems hold on `ℝ`).  The
  square root used by the factorization is a parameter `sqrt : K → K`.
* A heap block of doubles is a function `Nat → K` from the linear index to the
  stored value; an uninitialised block has the arbitrary contents `junk`.
  A store outside the allocated size is a store at that index of the same
  function, so the embedding follows the source's index arithmetic literally.
* The source stores outside the block `X` (line 152, and line 388 at degree
  `0`).  What such a store hits is decided by the allocator.  `main` is the run
  in which `X` and `Y` lie apart, so that it hits memory no block uses;
  `mainAt gap` is the run in which `Y` starts `gap` doubles after `X` on one
  heap, so that it can hit `Y`.  `fitFrom` is lines 178-439 for given blocks:
  statements about it say nothing of what the read loop left in them.
* `d` is the source's global `d`, i.e. the number of columns
  `atoi(argv[1]) + 1`; the requested degree is `deg`.
* The BLAS/LAPACK routines are external; they are modelled by their
  documented contract for the argument values `main` passes.
* `fopen`, `malloc` and `realloc` succeed (the returns of lines 99 and 127 are
  not taken), the input has its count header, the degree and the count read by
  `atoi` are not negative, and `int` arithmetic does not overflow.
-/

namespace FitPolynomial

variable {K : Type} [LinearOrderedField K]

set_option linter.unusedSectionVars false

/-- A heap block of doubles, addressed by linear index. -/
abbrev Mem (K : Type) := Nat → K

/-- The loop `for (i = 0; i < m; i++) s = body i s`. -/
def forUpTo {σ : Type} (body : Nat → σ → σ) (s : σ) : Nat → σ
  | 0 => s
  | m + 1 => body m (forUpTo body s m)

/-- The value of the global `numstab` in the source (`float numstab = 100.0`). -/
def numstab : K := 100

/-! ## Reading the observations (source lines 132-158) -/

/-- Lines 150-153: `for (j = 0; j < d+1; j++) X[i + j*n] = pow(x, j)*numstab;`
for the record in row `i`. -/
def fillRow (s : K) (n d i : Nat) (x : K) (X : Mem K) : Mem K :=
  forUpTo (fun j X => Function.update X (i + j * n) (x ^ j * s)) X (d + 1)

/-- The body of the `while (getline ...)` loop for the lines after the header:
each record `(x, y)` fills row `i` of `X`, stores `Y[i] = y*numstab` and
increments the global `i` (which starts at `0`).  Here `X` and `Y` lie apart: a
store to `X` never changes `Y`.  `readRecordsAt` is the same loop on one heap. -/
def readRecords (s : K) (n d : Nat) : List (K × K) → Nat → Mem K → Mem K → Mem K × Mem K × Nat
  | [], i, X, Y => (X, Y, i)
  | (x, y) :: rest, i, X, Y =>
      readRecords s n d rest (i + 1) (fillRow s n d i x X) (Function.update Y i (y * s))

/-- The number of doubles allocated for `X` by `realloc(X, n*d*sizeof(double))`. -/
def allocatedX (n d : Nat) : Nat := n * d

/-! ## BLAS / LAPACK routines, for the modes used by `main` -/

/-- `dgemm_` with `TRANSA = 'T'`, `TRANSB = 'N'`:
`C(i,j) <- alpha * sum_l A(l,i)*B(l,j) + beta*C(i,j)` for `i < m`, `j < n`,
all matrices column-major; `C` is not read when `beta = 0`. -/
def dgemm_TN (m n k : Nat) (alpha : K) (A : Mem K) (lda : Nat) (B : Mem K) (ldb : Nat)
    (beta : K) (C : Mem K) (ldc : Nat) : Mem K :=
  fun idx =>
    if idx % ldc < m ∧ idx / ldc < n then
      alpha * Finset.sum (Finset.range k)
          (fun l => A (l + (idx % ldc) * lda) * B (l + (idx / ldc) * ldb))
        + (if beta = 0 then 0 else beta * C idx)
    else C idx

/-- `dgemv_` with `TRANS = 'T'` and unit increments:
`y(j) <- alpha * sum_i A(i,j)*x(i) + beta*y(j)` for `j < n`, `A` being `m` by `n`. -/
def dgemv_T (m n : Nat) (alpha : K) (A : Mem K) (lda : Nat) (x : Mem K)
    (beta : K) (y : Mem K) : Mem K :=
  fun j =>
    if j < n then
      alpha * Finset.sum (Finset.range m) (fun i => A (i + j * lda) * x i)
        + (if beta = 0 then 0 else beta * y j)
    else y j

/-- `dgemv_` with `TRANS = 'N'` and unit increments:
`y(i) <- alpha * sum_j A(i,j)*x(j) + beta*y(i)` for `i < m`, `A` being `m` by `n`. -/
def dgemv_N (m n : Nat) (alpha : K) (A : Mem K) (lda : Nat) (x : Mem K)
    (beta : K) (y : Mem K) : Mem K :=
  fun i =>
    if i < m then
      alpha * Finset.sum (Finset.range n) (fun j => A (i + j * lda) * x j)
        + (if beta = 0 then 0 else beta * y i)
    else y i

/-- The block after column `j` of the lower Cholesky factorization has been
computed from the positive pivot `ajj`: `A(j,j) = sqrt(ajj)` and, for the rows
`i` below the diagonal, `A(i,j) = (A(i,j) - sum_{k<j} A(i,k)*A(j,k)) / A(j,j)`. -/
def dpotrfStore (sqrt : K → K) (n lda j : Nat) (ajj : K) (A : Mem K) : Mem K :=
  fun idx =>
    if idx = j + j * lda then sqrt ajj
    else if idx / lda = j ∧ j < idx % lda ∧ idx % lda < n then
      (A idx - Finset.sum (Finset.range j)
          (fun k => A (idx % lda + k * lda) * A (j + k * lda))) / sqrt ajj
    else A idx

/-- The pivot of column `j`: `A(j,j) - sum_{k<j} A(j,k)^2`. -/
def dpotrfPivot (lda j : Nat) (A : Mem K) : K :=
  A (j + j * lda) - Finset.sum (Finset.range j) (fun k => A (j + k * lda) * A (j + k * lda))

/-- One column of the lower Cholesky factorization (`UPLO = 'L'`): the pivot is
tested; when it is not positive the routine stops with `INFO = j+1`, otherwise
the column is computed.  Only the lower triangle is read or written. -/
def dpotrfColumn (sqrt : K → K) (n lda j : Nat) (A : Mem K) : Nat × Mem K :=
  if dpotrfPivot lda j A ≤ 0 then (j + 1, Function.update A (j + j * lda) (dpotrfPivot lda j A))
  else (0, dpotrfStore sqrt n lda j (dpotrfPivot lda j A) A)

/-- The first `j` columns of `dpotrf_` with `UPLO = 'L'`; the result is the
status `INFO` (zero on success) and the block after the call. -/
def dpotrfColumns (sqrt : K → K) (n lda : Nat) (A : Mem K) : Nat → Nat × Mem K
  | 0 => (0, A)
  | j + 1 =>
      let r := dpotrfColumns sqrt n lda A j
      if r.1 = 0 then dpotrfColumn sqrt n lda j r.2 else r

/-- `dpotrf_(&UPLO, &ORD, L, &LDD, &INFO)` with `UPLO = 'L'`. -/
def dpotrf_L (sqrt : K → K) (n : Nat) (A : Mem K) (lda : Nat) : Nat × Mem K :=
  dpotrfColumns sqrt n lda A n

/-- `dtrsm_` with `SIDE = 'L'`, `UPLO = 'L'`, `TRANSA = 'N'`, `DIAG = 'N'` and one
right-hand side: forward substitution, `B` overwritten by the solution of
`A*X = alpha*B`.  Rows `0..k-1` have been solved after `k` steps. -/
def dtrsm_LLNN (m : Nat) (alpha : K) (A : Mem K) (lda : Nat) (B : Mem K) : Mem K :=
  forUpTo (fun k X => Function.update X k
      ((X k - Finset.sum (Finset.range k) (fun j => A (k + j * lda) * X j)) / A (k + k * lda)))
    (fun i => if i < m then alpha * B i else B i) m

/-- `dtrsm_` with `SIDE = 'L'`, `UPLO = 'L'`, `TRANSA = 'T'`, `DIAG = 'N'` and one
right-hand side: back substitution, `B` overwritten by the solution of
`Aᵗ*X = alpha*B`.  Rows `m-1, m-2, ..` are solved in that order. -/
def dtrsm_LLTN (m : Nat) (alpha : K) (A : Mem K) (lda : Nat) (B : Mem K) : Mem K :=
  forUpTo (fun t X =>
      let i := m - 1 - t
      Function.update X i
        ((X i - Finset.sum (Finset.Ico (i + 1) m) (fun k => A (k + i * lda) * X k))
          / A (i + i * lda)))
    (fun i => if i < m then alpha * B i else B i) m

/-! ## The stages of `main` -/

/-- A copy loop `for (i = 0; i < m; i++) dst[i] = src[i];` (lines 250, 307, 337). -/
def copyLoop (m : Nat) (src dst : Mem K) : Mem K :=
  forUpTo (fun i D => Function.update D i (src i)) dst m

/-- Lines 268-272: the inner loop over `j` of the zeroing step, for row `i`. -/
def zeroRow (d i : Nat) (L : Mem K) : Mem K :=
  forUpTo (fun j L => if j > i then Function.update L (i + d * j) 0 else L) L d

/-- Lines 267-273: set the above-diagonal entries of `L` to `0`. -/
def zeroAbove (d : Nat) (L : Mem K) : Mem K :=
  forUpTo (fun i L => zeroRow d i L) L d

/-- Lines 178-202: `A = XᵗX` by `dgemm_` into a fresh block. -/
def formA (n d : Nat) (X junk : Mem K) : Mem K :=
  dgemm_TN d d n 1 X n X n 0 junk d

/-- Lines 213-232: `P = Xᵗy` by `dgemv_` into a fresh block. -/
def formP (n d : Nat) (X Y junk : Mem K) : Mem K :=
  dgemv_T n d 1 X n Y 0 junk

/-- Lines 243-259: copy `A` into `L` and factor it in place; the result is
`INFO` and the block `L` after `dpotrf_`. -/
def factor (sqrt : K → K) (d : Nat) (A junk : Mem K) : Nat × Mem K :=
  dpotrf_L sqrt d (copyLoop (d * d) A junk) d

/-- Lines 302-312: `Q` is a copy of `P`, overwritten by the solution of `L Q = P`. -/
def solveQ (d : Nat) (L P junk : Mem K) : Mem K :=
  dtrsm_LLNN d 1 L d (copyLoop d P junk)

/-- Lines 332-342: `B` is a copy of `Q`, overwritten by the solution of `Lᵗ B = Q`. -/
def solveB (d : Nat) (L Q junk : Mem K) : Mem K :=
  dtrsm_LLTN d 1 L d (copyLoop d Q junk)

/-- Lines 352-376: `Yhat = X B` by `dgemv_`, then every entry divided by `numstab`. -/
def predict (s : K) (n d : Nat) (X B junk : Mem K) : Mem K :=
  forUpTo (fun i Yh => Function.update Yh i (Yh i / s)) (dgemv_N n d 1 X n B 0 junk) n

/-- The state of the write-out loop of lines 387-397: the blocks `X` and `Y`
and the lines written so far to the raw, fit and design-matrix files. -/
structure WriteOut (K : Type) where
  /-- the block `X` -/
  X : Mem K
  /-- the block `Y` -/
  Y : Mem K
  /-- lines of `poly_raw_<deg>.dat` -/
  raw : List (K × K)
  /-- lines of `poly_fit_<deg>.dat` -/
  fit : List (K × K)
  /-- lines of `poly_designMx_<deg>.dat` -/
  designMx : List (List K)

/-- Lines 392-395: the inner loop over `j`, dividing `X[i + j*n]` by `numstab`
and printing it; the state is the block `X` and the entries printed on this line. -/
def writeRow (s : K) (n d i : Nat) (X : Mem K) : Mem K × List K :=
  forUpTo (fun j st =>
      let X1 := Function.update st.1 (i + j * n) (st.1 (i + j * n) / s)
      (X1, st.2 ++ [X1 (i + j * n)]))
    (X, []) d

/-- Lines 387-397: one iteration of the write-out loop, for row `i`, with `X`
and `Y` lying apart (`writeOutStepAt` is the same iteration on one heap; the two
differ only at degree `0`, where `X[i + n]` is outside the block). -/
def writeOutStep (s : K) (n d : Nat) (Yhat : Mem K) (i : Nat) (w : WriteOut K) : WriteOut K :=
  let X1 := Function.update w.X (i + n) (w.X (i + n) / s)
  let Y1 := Function.update w.Y i (w.Y i / s)
  let row := writeRow s n d i X1
  { X := row.1, Y := Y1,
    raw := w.raw ++ [(X1 (i + n), Y1 i)],
    fit := w.fit ++ [(X1 (i + n), Yhat i)],
    designMx := w.designMx ++ [row.2] }

/-- Lines 387-397: the write-out loop over the `n` rows. -/
def writeOut (s : K) (n d : Nat) (X Y Yhat : Mem K) : WriteOut K :=
  forUpTo (writeOutStep s n d Yhat) { X := X, Y := Y, raw := [], fit := [], designMx := [] } n

/-- A floating-point quotient: a zero divisor gives an infinity or a NaN, which
is `none`; otherwise the exact quotient. -/
def fdiv (a b : K) : Option K := if b = 0 then none else some (a / b)

/-- The values computed by lines 406-418. -/
structure Stats (K : Type) where
  /-- the global `mu` -/
  mu : K
  /-- the global `sse` -/
  sse : K
  /-- the global `var` -/
  var : K
  /-- the global `r`; `none` when it is not a finite number -/
  r : Option K

/-- Lines 406-418: `mu` and `sse` in one loop, `var` in a second, then
`r = 1.0 - sse/var`. -/
def rSquared (n : Nat) (Y Yhat : Mem K) : Stats K :=
  let ms := forUpTo (fun i (a : K × K) => (a.1 + Y i / (n : K), a.2 + (Yhat i - Y i) ^ 2))
    ((0 : K), (0 : K)) n
  let var := forUpTo (fun i (v : K) => v + (Y i - ms.1) ^ 2) (0 : K) n
  { mu := ms.1, sse := ms.2, var := var, r := (fdiv ms.2 var).map (fun q => 1 - q) }

/-- The external numeric routines `main` can call. -/
inductive Call
  | dgemm
  | dgemv
  | dpotrf
  | dtrsm
  deriving DecidableEq

/-- The blocks computed by lines 178-342. -/
structure Solved (K : Type) where
  /-- the normal matrix `A` -/
  A : Mem K
  /-- the projection `P` -/
  P : Mem K
  /-- the factor `L` after the zeroing step -/
  L : Mem K
  /-- the solution of `L Q = P` -/
  Q : Mem K
  /-- the coefficient block `B` -/
  B : Mem K

/-- Lines 178-342 as a function of the blocks `X` and `Y`: form `A` and `P`,
factor, and return `INFO`; when `INFO` is not zero `main` returns at line 263,
otherwise the upper triangle is zeroed and the two triangular systems solved. -/
def normalSolve (sqrt : K → K) (n d : Nat) (X Y junk : Mem K) : Nat × Option (Solved K) :=
  let A := formA n d X junk
  let P := formP n d X Y junk
  let f := factor sqrt d A junk
  if f.1 ≠ 0 then (f.1, none)
  else
    let L := zeroAbove d f.2
    let Q := solveQ d L P junk
    let B := solveB d L Q junk
    (f.1, some { A := A, P := P, L := L, Q := Q, B := B })

/-- What a completed run reports. -/
structure Report (K : Type) where
  /-- the blocks of the normal-equations solve -/
  sol : Solved K
  /-- the predictions after division by `numstab` -/
  Yhat : Mem K
  /-- lines of `poly_coef_<deg>.dat` -/
  coef : List K
  /-- the state after the write-out loop -/
  out : WriteOut K
  /-- the statistics of lines 406-418 -/
  stats : Stats K

/-- The observable result of a run of `main`. -/
structure Run (K : Type) where
  /-- the exit status -/
  exit : Nat
  /-- the value of `INFO` after `dpotrf_` -/
  INFO : Nat
  /-- the numeric routines called, in order -/
  calls : List Call
  /-- the report, when the run reaches line 439 -/
  report : Option (Report K)

/-- Lines 102-160: the blocks `X` and `Y` after the input has been read, when
they lie apart; `n` is the count on the header line and `recs` are the records
that follow it. -/
def load (s : K) (n d : Nat) (recs : List (K × K)) (junk : Mem K) : Mem K × Mem K × Nat :=
  readRecords s n d recs 0 junk junk

/-- The function `main` when `X` and `Y` lie apart and every allocation
succeeds (the return of line 127 is not taken): `sqrt` is the square root of the
factorization, `s` the value of `numstab`, `deg` the command-line degree, `n` the
count on the header line, `recs` the records after it, `junk` the contents of
fresh heap blocks. -/
def main (sqrt : K → K) (s : K) (deg n : Nat) (recs : List (K × K)) (junk : Mem K) : Run K :=
  let d := deg + 1
  let XY := load s n d recs junk
  let X := XY.1
  let Y := XY.2.1
  match normalSolve sqrt n d X Y junk with
  | (info, none) =>
    { exit := 1, INFO := info, calls := [Call.dgemm, Call.dgemv, Call.dpotrf], report := none }
  | (info, some sv) =>
    let Yhat := predict s n d X sv.B junk
    let w := writeOut s n d X Y Yhat
    { exit := 0, INFO := info,
      calls := [Call.dgemm, Call.dgemv, Call.dpotrf, Call.dtrsm, Call.dtrsm, Call.dgemv],
      report := some
        { sol := sv, Yhat := Yhat, coef := (List.range d).map sv.B, out := w,
          stats := rSquared n w.Y Yhat } }

/-- Lines 178-439 as a function of the blocks `X` and `Y` as they stand when
line 178 is reached, lying apart: `main` is `fitFrom` at the blocks `load`
returns. -/
def fitFrom (sqrt : K → K) (s : K) (deg n : Nat) (X Y junk : Mem K) : Run K :=
  let d := deg + 1
  match normalSolve sqrt n d X Y junk with
  | (info, none) =>
    { exit := 1, INFO := info, calls := [Call.dgemm, Call.dgemv, Call.dpotrf], report := none }
  | (info, some sv) =>
    let Yhat := predict s n d X sv.B junk
    let w := writeOut s n d X Y Yhat
    { exit := 0, INFO := info,
      calls := [Call.dgemm, Call.dgemv, Call.dpotrf, Call.dtrsm, Call.dtrsm, Call.dgemv],
      report := some
        { sol := sv, Yhat := Yhat, coef := (List.range d).map sv.B, out := w,
          stats := rSquared n w.Y Yhat } }

/-! ## The blocks `X` and `Y` on one heap

`X[k]` is the cell `H k` and `Y[i]` the cell `H (gap + i)`: `Y` starts `gap`
doubles after `X`.  The source does not fix `gap`, the allocator does: where the
heap is cut into chunks of a multiple of 16 bytes with an 8-byte header and `Y`
is the chunk after `X`, `gap` is `4` for a block `X` of three doubles and `14`
for one of twelve.  The cells between two blocks belong to the allocator and
are not read by the run.  The blocks allocated after the read loop are only
accessed inside their bounds and stay functions of their own. -/

/-- The read loop of lines 132-158 on one heap: the fill loop of row `i`, then
`Y[i] = y*numstab`, then `i++`. -/
def readRecordsAt (s : K) (n d gap : Nat) : List (K × K) → Nat → Mem K → Mem K
  | [], _, H => H
  | (x, y) :: rest, i, H =>
      readRecordsAt s n d gap rest (i + 1)
        (Function.update (fillRow s n d i x H) (gap + i) (y * s))

/-- The state of the write-out loop on one heap. -/
structure HeapOut (K : Type) where
  /-- the heap holding `X` and `Y` -/
  H : Mem K
  /-- lines of `poly_raw_<deg>.dat` -/
  raw : List (K × K)
  /-- lines of `poly_fit_<deg>.dat` -/
  fit : List (K × K)
  /-- lines of `poly_designMx_<deg>.dat` -/
  designMx : List (List K)

/-- Lines 387-397 on one heap: one iteration of the write-out loop, for row `i`. -/
def writeOutStepAt (s : K) (n d gap : Nat) (Yhat : Mem K) (i : Nat) (w : HeapOut K) :
    HeapOut K :=
  let H1 := Function.update w.H (i + n) (w.H (i + n) / s)
  let H2 := Function.update H1 (gap + i) (H1 (gap + i) / s)
  let row := writeRow s n d i H2
  { H := row.1,
    raw := w.raw ++ [(H2 (i + n), H2 (gap + i))],
    fit := w.fit ++ [(H2 (i + n), Yhat i)],
    designMx := w.designMx ++ [row.2] }

/-- Lines 387-397 on one heap: the write-out loop over the `n` rows. -/
def writeOutAt (s : K) (n d gap : Nat) (H Yhat : Mem K) : HeapOut K :=
  forUpTo (writeOutStepAt s n d gap Yhat) { H := H, raw := [], fit := [], designMx := [] } n

/-- The function `main` when `Y` starts `gap` doubles after `X` on one heap
(every allocation succeeds); the arguments are those of `main`. -/
def mainAt (gap : Nat) (sqrt : K → K) (s : K) (deg n : Nat) (recs : List (K × K))
    (junk : Mem K) : Run K :=
  let d := deg + 1
  let H := readRecordsAt s n d gap recs 0 junk
  match normalSolve sqrt n d H (fun i => H (gap + i)) junk with
  | (info, none) =>
    { exit := 1, INFO := info, calls := [Call.dgemm, Call.dgemv, Call.dpotrf], report := none }
  | (info, some sv) =>
    let Yhat := predict s n d H sv.B junk
    let w := writeOutAt s n d gap H Yhat
    { exit := 0, INFO := info,
      calls := [Call.dgemm, Call.dgemv, Call.dpotrf, Call.dtrsm, Call.dtrsm, Call.dgemv],
      report := some
        { sol := sv, Yhat := Yhat, coef := (List.range d).map sv.B,
          out := { X := w.H, Y := fun i => w.H (gap + i), raw := w.raw, fit := w.fit,
                   designMx := w.designMx },
          stats := rSquared n (fun i => w.H (gap + i)) Yhat } }

/-- A block holding the listed doubles from index `0` on (zero past the end). -/
def blockOf (l : List K) : Mem K := fun i => l.getD i 0

/-! ## Definitions used by the statements and the proofs -/

/-- The `x` of record `i` (zero past the end of the input). -/
def obsX (recs : List (K × K)) (i : Nat) : K := (recs.getD i (0, 0)).1

/-- The `y` of record `i` (zero past the end of the input). -/
def obsY (recs : List (K × K)) (i : Nat) : K := (recs.getD i (0, 0)).2

/-- What holds of the block after `j` columns of a successful factorization of
the lower triangle of `A0` (order `d`, leading dimension `d`). -/
structure CholInv (d : Nat) (A0 L : Mem K) (j : Nat) : Prop where
  prod : ∀ c, c < j → ∀ i, c ≤ i → i < d →
    Finset.sum (Finset.range (c + 1)) (fun k => L (i + k * d) * L (c + k * d)) = A0 (i + c * d)
  diag : ∀ c, c < j → L (c + c * d) ≠ 0
  rest : ∀ idx, ¬ (idx / d < j ∧ idx / d ≤ idx % d) → L idx = A0 idx

/-- The `d` by `d` matrix stored column-major in a block. -/
def sqMat (d : Nat) (A : Mem K) : Matrix (Fin d) (Fin d) K :=
  fun i c => A (i.val + c.val * d)

/-- The lower triangle of the `d` by `d` matrix stored column-major in a block. -/
def lowerMat (d : Nat) (L : Mem K) : Matrix (Fin d) (Fin d) K :=
  fun i k => if k.val ≤ i.val then L (i.val + k.val * d) else 0

/-- The first `d` entries of a block as a vector. -/
def vecOf (d : Nat) (v : Mem K) : Fin d → K := fun i => v i.val

/-- The design matrix behind the block `X`. -/
def designMat (n d : Nat) (X : Mem K) : Matrix (Fin n) (Fin d) K :=
  fun l i => X (l.val + i.val * n)

/-- The line of the design-matrix file for row `i`: every entry is divided by
`s`, the entry of column `1` twice (lines 388 and 393). -/
def designRow (s : K) (n d : Nat) (X : Mem K) (i : Nat) : List K :=
  (List.range d).map (fun j => if j = 1 then X (i + n) / s / s else X (i + j * n) / s)

/-- Two blocks whose lower triangles differ by the factor `r` in the columns
already factored and by `r^2` in the others. -/
def ScaledLower (d : Nat) (r : K) (j : Nat) (L L' : Mem K) : Prop :=
  ∀ i k, k ≤ i → i < d → L' (i + k * d) = (if k < j then r else r ^ 2) * L (i + k * d)

/-- The mean of the first `n` targets: `μ = (Σ y_i)/n`. -/
def specMean (n : Nat) (y : Nat → K) : K :=
  Finset.sum (Finset.range n) y / (n : K)

/-- The sum of squared errors `SSE = Σ (ŷ_i − y_i)²`. -/
def specSSE (n : Nat) (yhat y : Nat → K) : K :=
  Finset.sum (Finset.range n) (fun i => (yhat i - y i) ^ 2)

/-- The total variation `Var = Σ (y_i − μ)²`. -/
def specVar (n : Nat) (y : Nat → K) : K :=
  Finset.sum (Finset.range n) (fun i => (y i - specMean n y) ^ 2)

/-- The coefficient of determination `R² = 1 − SSE/Var`, undefined when `Var = 0`. -/
def specR2 (n : Nat) (yhat y : Nat → K) : Option K :=
  if specVar n y = 0 then none else some (1 - specSSE n yhat y / specVar n y)

/-- A fresh heap whose blocks hold zeros. -/
def zeroHeap : Mem K := fun _ => 0

/-- The first end-to-end example of the specification: three points on `y = x`. -/
def lineRecs : List (K × K) := [(0, 0), (1, 1), (2, 2)]

theorem idx_mod {d i : Nat} (j : Nat) (h : i < d) : (i + j * d) % d = i := by
  rw [Nat.add_mul_mod_self_right, Nat.mod_eq_of_lt h]

theorem idx_div {d i : Nat} (j : Nat) (h : i < d) : (i + j * d) / d = j := by
  rw [Nat.add_mul_div_right _ _ (by omega : 0 < d), Nat.div_eq_of_lt h, Nat.zero_add]

theorem idx_eq_iff {d i : Nat} (j idx : Nat) (h : i < d) :
    idx = i + j * d ↔ idx % d = i ∧ idx / d = j := by
  constructor
  · rintro rfl
    exact ⟨idx_mod j h, idx_div j h⟩
  · rintro ⟨h1, h2⟩
    have := Nat.mod_add_div idx d
    rw [h1, h2, Nat.mul_comm] at this
    exact this.symm

theorem zeroRow_loop (d i : Nat) (hi : i < d) (L : Mem K) (m idx : Nat) :
    forUpTo (fun j (L : Mem K) => if j > i then Function.update L (i + d * j) 0 else L) L m idx
      = if idx % d = i ∧ i < idx / d ∧ idx / d < m then 0 else L idx := by
  induction m with
  | zero => simp [forUpTo]
  | succ m ih =>
    simp only [forUpTo]
    by_cases hm : m > i
    · rw [if_pos hm, Function.update_apply, ih, Nat.mul_comm d m]
      simp only [idx_eq_iff m idx hi]
      by_cases h1 : idx % d = i <;> by_cases h2 : idx / d = m
      · simp [h1, h2, hm]
      · have : idx / d < m + 1 ↔ idx / d < m := by omega
        simp [h1, h2, this]
      · simp [h1, h2]
      · simp [h1, h2]
    · rw [if_neg hm, ih]
      have : ∀ q : Nat, (i < q ∧ q < m + 1) ↔ (i < q ∧ q < m) := by intro q; omega
      simp [this]

theorem zeroRow_apply (d i : Nat) (hi : i < d) (L : Mem K) (idx : Nat) :
    zeroRow d i L idx = if idx % d = i ∧ i < idx / d ∧ idx / d < d then 0 else L idx :=
  zeroRow_loop d i hi L d idx

theorem zeroAbove_loop (d : Nat) (L : Mem K) (m : Nat) (hm : m ≤ d) (idx : Nat) :
    forUpTo (fun i (L : Mem K) => zeroRow d i L) L m idx
      = if idx % d < m ∧ idx % d < idx / d ∧ idx / d < d then 0 else L idx := by
  induction m with
  | zero => simp [forUpTo]
  | succ m ih =>
    simp only [forUpTo]
    rw [zeroRow_apply d m (by omega), ih (by omega)]
    by_cases h1 : idx % d = m
    · by_cases h2 : m < idx / d ∧ idx / d < d
      · simp [h1, h2]
      · have h3 : ¬ (idx % d < m) := by omega
        rw [if_neg (by tauto), if_neg (by tauto), if_neg (by rw [h1]; tauto)]
    · have : idx % d < m + 1 ↔ idx % d < m := by omega
      rw [if_neg (by tauto)]
      simp only [this]

theorem zeroAbove_apply (d : Nat) (L : Mem K) (idx : Nat) :
    zeroAbove d L idx = if idx % d < idx / d ∧ idx / d < d then 0 else L idx := by
  unfold zeroAbove
  rw [zeroAbove_loop d L d le_rfl]
  by_cases hd : 0 < d
  · have := Nat.mod_lt idx hd
    simp [this]
  · have : d = 0 := by omega
    subst this
    simp

theorem forUpTo_pointwise (g : Nat → K → K) (M : Mem K) (m idx : Nat) :
    forUpTo (fun i (M : Mem K) => Function.update M i (g i (M i))) M m idx
      = if idx < m then g idx (M idx) else M idx := by
  induction m generalizing idx with
  | zero => simp [forUpTo]
  | succ m ih =>
    simp only [forUpTo, Function.update_apply]
    by_cases h : idx = m
    · subst h
      rw [if_pos rfl, if_pos (Nat.lt_succ_self _), ih idx, if_neg (Nat.lt_irrefl _)]
    · rw [if_neg h, ih]
      have : idx < m + 1 ↔ idx < m := by omega
      simp only [this]

theorem forUpTo_sum (f : Nat → K) (m : Nat) :
    forUpTo (fun i (a : K) => a + f i) 0 m = Finset.sum (Finset.range m) f := by
  induction m with
  | zero => simp [forUpTo]
  | succ m ih => simp only [forUpTo, ih, Finset.sum_range_succ]

theorem copyLoop_apply (m : Nat) (src dst : Mem K) (idx : Nat) :
    copyLoop m src dst idx = if idx < m then src idx else dst idx :=
  forUpTo_pointwise (fun i _ => src i) dst m idx

theorem fillRow_loop (s : K) (n i : Nat) (hi : i < n) (x : K) (X : Mem K) (m idx : Nat) :
    forUpTo (fun j (X : Mem K) => Function.update X (i + j * n) (x ^ j * s)) X m idx
      = if idx % n = i ∧ idx / n < m then x ^ (idx / n) * s else X idx := by
  induction m with
  | zero => simp [forUpTo]
  | succ m ih =>
    simp only [forUpTo, Function.update_apply, ih, idx_eq_iff m idx hi]
    by_cases h1 : idx % n = i <;> by_cases h2 : idx / n = m
    · simp [h1, h2]
    · have : idx / n < m + 1 ↔ idx / n < m := by omega
      simp [h1, h2, this]
    · simp [h1, h2]
    · simp [h1, h2]

theorem fillRow_apply (s : K) (n d i : Nat) (hi : i < n) (x : K) (X : Mem K) (idx : Nat) :
    fillRow s n d i x X idx
      = if idx % n = i ∧ idx / n ≤ d then x ^ (idx / n) * s else X idx := by
  unfold fillRow
  rw [fillRow_loop s n i hi]
  have : idx / n < d + 1 ↔ idx / n ≤ d := by omega
  simp only [this]

theorem obsX_cons_zero (r : K × K) (rest : List (K × K)) : obsX (r :: rest) 0 = r.1 := rfl

theorem obsX_cons_succ (r : K × K) (rest : List (K × K)) (k : Nat) :
    obsX (r :: rest) (k + 1) = obsX rest k := rfl

theorem obsY_cons_zero (r : K × K) (rest : List (K × K)) : obsY (r :: rest) 0 = r.2 := rfl

theorem obsY_cons_succ (r : K × K) (rest : List (K × K)) (k : Nat) :
    obsY (r :: rest) (k + 1) = obsY rest k := rfl

theorem readRecords_X (s : K) (n d : Nat) (recs : List (K × K)) :
    ∀ (i0 : Nat) (X Y : Mem K), i0 + recs.length ≤ n → ∀ idx,
      (readRecords s n d recs i0 X Y).1 idx
        = if i0 ≤ idx % n ∧ idx % n < i0 + recs.length ∧ idx / n ≤ d
          then obsX recs (idx % n - i0) ^ (idx / n) * s else X idx := by
  induction recs with
  | nil =>
    intro i0 X Y _ idx
    simp only [readRecords, List.length_nil]
    rw [if_neg (by omega)]
  | cons r rest ih =>
    intro i0 X Y h idx
    obtain ⟨x, y⟩ := r
    simp only [List.length_cons] at h
    simp only [readRecords, List.length_cons]
    rw [ih (i0 + 1) _ _ (by omega), fillRow_apply s n d i0 (by omega)]
    by_cases h1 : idx % n = i0
    · rw [if_neg (by omega)]
      by_cases h2 : idx / n ≤ d
      · rw [if_pos ⟨h1, h2⟩, if_pos ⟨by omega, by omega, h2⟩, h1, Nat.sub_self, obsX_cons_zero]
      · rw [if_neg (by tauto), if_neg (by tauto)]
    · by_cases h3 : i0 + 1 ≤ idx % n ∧ idx % n < i0 + 1 + rest.length ∧ idx / n ≤ d
      · rw [if_pos h3, if_pos ⟨by omega, by omega, h3.2.2⟩]
        have : idx % n - i0 = (idx % n - (i0 + 1)) + 1 := by omega
        rw [this, obsX_cons_succ]
      · rw [if_neg h3, if_neg (by tauto), if_neg (by omega)]

theorem readRecords_Y (s : K) (n d : Nat) (recs : List (K × K)) :
    ∀ (i0 : Nat) (X Y : Mem K) (idx : Nat),
      (readRecords s n d recs i0 X Y).2.1 idx
        = if i0 ≤ idx ∧ idx < i0 + recs.length then obsY recs (idx - i0) * s else Y idx := by
  induction recs with
  | nil =>
    intro i0 X Y idx
    simp only [readRecords, List.length_nil]
    rw [if_neg (by omega)]
  | cons r rest ih =>
    intro i0 X Y idx
    obtain ⟨x, y⟩ := r
    simp only [readRecords, List.length_cons]
    rw [ih (i0 + 1), Function.update_apply]
    by_cases h1 : idx = i0
    · subst h1
      rw [if_neg (by omega), if_pos rfl, if_pos (by omega), Nat.sub_self, obsY_cons_zero]
    · rw [if_neg h1]
      by_cases h3 : i0 + 1 ≤ idx ∧ idx < i0 + 1 + rest.length
      · rw [if_pos h3, if_pos (by omega)]
        have : idx - i0 = (idx - (i0 + 1)) + 1 := by omega
        rw [this, obsY_cons_succ]
      · rw [if_neg h3, if_neg (by omega)]

/-- The design matrix in memory after a well-formed input has been read: row
`i`, column `j` holds `x_i^j * s` for every `j ≤ d` (column `d` lies past the
allocated block). -/
theorem load_X (s : K) (n d : Nat) (recs : List (K × K)) (junk : Mem K)
    (hlen : recs.length = n) (i j : Nat) (hi : i < n) (hj : j ≤ d) :
    (load s n d recs junk).1 (i + j * n) = obsX recs i ^ j * s := by
  unfold load
  rw [readRecords_X s n d recs 0 junk junk (by omega), idx_mod j hi, idx_div j hi,
    if_pos ⟨by omega, by omega, hj⟩, Nat.sub_zero]

theorem load_Y (s : K) (n d : Nat) (recs : List (K × K)) (junk : Mem K)
    (hlen : recs.length = n) (i : Nat) (hi : i < n) :
    (load s n d recs junk).2.1 i = obsY recs i * s := by
  unfold load
  rw [readRecords_Y s n d recs 0 junk junk, if_pos (by omega), Nat.sub_zero]

theorem dpotrfStore_old (sqrt : K → K) (d j : Nat) (hj : j < d) (ajj : K) (L : Mem K)
    (i k : Nat) (hi : i < d) (hk : k < j) :
    dpotrfStore sqrt d d j ajj L (i + k * d) = L (i + k * d) := by
  unfold dpotrfStore
  have h1 : ¬ (i + k * d = j + j * d) := by
    intro h
    have := congrArg (fun t => t / d) h
    simp only [idx_div k hi, idx_div j hj] at this
    omega
  simp only [if_neg h1, idx_div k hi]
  rw [if_neg (by omega)]

theorem dpotrfStore_diag (sqrt : K → K) (d j : Nat) (ajj : K) (L : Mem K) :
    dpotrfStore sqrt d d j ajj L (j + j * d) = sqrt ajj := by
  simp [dpotrfStore]

theorem dpotrfStore_col (sqrt : K → K) (d j : Nat) (ajj : K) (L : Mem K)
    (i : Nat) (hji : j < i) (hi : i < d) :
    dpotrfStore sqrt d d j ajj L (i + j * d)
      = (L (i + j * d) - Finset.sum (Finset.range j)
          (fun k => L (i + k * d) * L (j + k * d))) / sqrt ajj := by
  unfold dpotrfStore
  have h1 : ¬ (i + j * d = j + j * d) := by omega
  simp only [if_neg h1, idx_div j hi, idx_mod j hi]
  rw [if_pos ⟨trivial, hji, hi⟩]

theorem dpotrfStore_rest (sqrt : K → K) (d j : Nat) (hj : j < d) (ajj : K) (L : Mem K)
    (idx : Nat) (hidx : ¬ (idx / d < j + 1 ∧ idx / d ≤ idx % d)) :
    dpotrfStore sqrt d d j ajj L idx = L idx := by
  unfold dpotrfStore
  have h1 : ¬ (idx = j + j * d) := by
    intro h
    apply hidx
    rw [h, idx_div j hj, idx_mod j hj]
    omega
  simp only [if_neg h1]
  rw [if_neg (by omega)]

theorem dpotrfColumn_ok (sqrt : K → K) (hsqrt : ∀ x : K, 0 < x → sqrt x * sqrt x = x)
    (d j : Nat) (hj : j < d) (A0 L : Mem K) (hinv : CholInv d A0 L j)
    (h0 : (dpotrfColumn sqrt d d j L).1 = 0) :
    CholInv d A0 (dpotrfColumn sqrt d d j L).2 (j + 1) := by
  unfold dpotrfColumn at h0 ⊢
  by_cases hneg : dpotrfPivot d j L ≤ 0
  · simp [hneg] at h0
  have hpos : 0 < dpotrfPivot d j L := lt_of_not_ge hneg
  have hss := hsqrt _ hpos
  have hs0 : sqrt (dpotrfPivot d j L) ≠ 0 := by
    intro h
    rw [h, mul_zero] at hss
    exact (ne_of_gt hpos) hss.symm
  simp only [if_neg hneg]
  have hLjj : L (j + j * d) = A0 (j + j * d) :=
    hinv.rest _ (by rw [idx_div j hj]; omega)
  refine ⟨?_, ?_, ?_⟩
  · intro c hc i hci hi
    have hsum : Finset.sum (Finset.range c) (fun k =>
        dpotrfStore sqrt d d j (dpotrfPivot d j L) L (i + k * d) *
          dpotrfStore sqrt d d j (dpotrfPivot d j L) L (c + k * d))
        = Finset.sum (Finset.range c) (fun k => L (i + k * d) * L (c + k * d)) := by
      apply Finset.sum_congr rfl
      intro k hk
      have hk' : k < j := by
        have := Finset.mem_range.mp hk
        omega
      rw [dpotrfStore_old sqrt d j hj _ L i k hi hk',
        dpotrfStore_old sqrt d j hj _ L c k (by omega) hk']
    rcases Nat.lt_succ_iff_lt_or_eq.mp hc with hlt | heq
    · rw [Finset.sum_range_succ, hsum, dpotrfStore_old sqrt d j hj _ L i c hi hlt,
        dpotrfStore_old sqrt d j hj _ L c c (by omega) hlt,
        ← Finset.sum_range_succ (fun k => L (i + k * d) * L (c + k * d))]
      exact hinv.prod c hlt i hci hi
    · subst heq
      rw [Finset.sum_range_succ, hsum, dpotrfStore_diag]
      rcases Nat.lt_or_eq_of_le hci with hlt | heq
      · rw [dpotrfStore_col sqrt d c _ L i hlt hi,
          hinv.rest (i + c * d) (by rw [idx_div c hi]; omega)]
        field_simp
      · subst heq
        rw [dpotrfStore_diag, hss]
        unfold dpotrfPivot
        rw [hLjj]
        ring
  · intro c hc
    rcases Nat.lt_succ_iff_lt_or_eq.mp hc with hlt | heq
    · rw [dpotrfStore_old sqrt d j hj _ L c c (by omega) hlt]
      exact hinv.diag c hlt
    · subst heq
      rw [dpotrfStore_diag]
      exact hs0
  · intro idx hidx
    rw [dpotrfStore_rest sqrt d j hj _ L idx hidx]
    exact hinv.rest idx (by omega)

theorem dpotrfColumns_ok (sqrt : K → K) (hsqrt : ∀ x : K, 0 < x → sqrt x * sqrt x = x)
    (d : Nat) (A0 : Mem K) (j : Nat) (hj : j ≤ d)
    (h0 : (dpotrfColumns sqrt d d A0 j).1 = 0) :
    CholInv d A0 (dpotrfColumns sqrt d d A0 j).2 j := by
  induction j with
  | zero =>
    exact ⟨fun c hc => absurd hc (Nat.not_lt_zero c), fun c hc => absurd hc (Nat.not_lt_zero c),
      fun idx _ => rfl⟩
  | succ j ih =>
    simp only [dpotrfColumns] at h0 ⊢
    by_cases hr : (dpotrfColumns sqrt d d A0 j).1 = 0
    · rw [if_pos hr] at h0 ⊢
      exact dpotrfColumn_ok sqrt hsqrt d j (by omega) A0 _ (ih (by omega) hr) h0
    · rw [if_neg hr] at h0
      exact absurd h0 hr

theorem dtrsm_LLNN_loop (A : Mem K) (lda : Nat) (X0 : Mem K) (t : Nat) :
    (∀ k, k < t →
      forUpTo (fun k (X : Mem K) => Function.update X k
        ((X k - Finset.sum (Finset.range k) (fun j => A (k + j * lda) * X j))
          / A (k + k * lda))) X0 t k
      = (X0 k - Finset.sum (Finset.range k) (fun j => A (k + j * lda) *
          forUpTo (fun k (X : Mem K) => Function.update X k
            ((X k - Finset.sum (Finset.range k) (fun j => A (k + j * lda) * X j))
              / A (k + k * lda))) X0 t j)) / A (k + k * lda)) ∧
    (∀ k, t ≤ k →
      forUpTo (fun k (X : Mem K) => Function.update X k
        ((X k - Finset.sum (Finset.range k) (fun j => A (k + j * lda) * X j))
          / A (k + k * lda))) X0 t k = X0 k) := by
  induction t with
  | zero => exact ⟨fun k hk => absurd hk (Nat.not_lt_zero k), fun k _ => rfl⟩
  | succ t ih =>
    obtain ⟨ih1, ih2⟩ := ih
    simp only [forUpTo]
    generalize forUpTo (fun k (X : Mem K) => Function.update X k
        ((X k - Finset.sum (Finset.range k) (fun j => A (k + j * lda) * X j))
          / A (k + k * lda))) X0 t = Xt at ih1 ih2 ⊢
    have hsum : ∀ k, k ≤ t →
        Finset.sum (Finset.range k) (fun j => A (k + j * lda) *
          Function.update Xt t
            ((Xt t - Finset.sum (Finset.range t) (fun j => A (t + j * lda) * Xt j))
              / A (t + t * lda)) j)
        = Finset.sum (Finset.range k) (fun j => A (k + j * lda) * Xt j) := by
      intro k hk
      apply Finset.sum_congr rfl
      intro j hj
      have : j ≠ t := by
        have := Finset.mem_range.mp hj
        omega
      rw [Function.update_noteq this]
    constructor
    · intro k hk
      rw [hsum k (by omega)]
      rcases Nat.lt_succ_iff_lt_or_eq.mp hk with hlt | heq
      · rw [Function.update_noteq (by omega), ih1 k hlt]
      · subst heq
        rw [Function.update_same, ih2 k le_rfl]
    · intro k hk
      rw [Function.update_noteq (by omega), ih2 k (by omega)]

/-- Forward substitution: the block returned by `dtrsm_` (left, lower, no
transpose, non-unit) satisfies the recurrence of the triangular system. -/
theorem dtrsm_LLNN_rec (m : Nat) (alpha : K) (A : Mem K) (lda : Nat) (B : Mem K)
    (k : Nat) (hk : k < m) :
    dtrsm_LLNN m alpha A lda B k
      = (alpha * B k - Finset.sum (Finset.range k)
          (fun j => A (k + j * lda) * dtrsm_LLNN m alpha A lda B j)) / A (k + k * lda) := by
  have h := (dtrsm_LLNN_loop A lda (fun i => if i < m then alpha * B i else B i) m).1 k hk
  simp only [if_pos hk] at h
  exact h

theorem dtrsm_LLTN_loop (m : Nat) (A : Mem K) (lda : Nat) (X0 : Mem K) (t : Nat) (ht : t ≤ m) :
    (∀ i, m - t ≤ i → i < m →
      forUpTo (fun t (X : Mem K) => Function.update X (m - 1 - t)
        ((X (m - 1 - t) - Finset.sum (Finset.Ico (m - 1 - t + 1) m)
            (fun k => A (k + (m - 1 - t) * lda) * X k))
          / A ((m - 1 - t) + (m - 1 - t) * lda))) X0 t i
      = (X0 i - Finset.sum (Finset.Ico (i + 1) m) (fun k => A (k + i * lda) *
          forUpTo (fun t (X : Mem K) => Function.update X (m - 1 - t)
            ((X (m - 1 - t) - Finset.sum (Finset.Ico (m - 1 - t + 1) m)
                (fun k => A (k + (m - 1 - t) * lda) * X k))
              / A ((m - 1 - t) + (m - 1 - t) * lda))) X0 t k)) / A (i + i * lda)) ∧
    (∀ i, i < m - t →
      forUpTo (fun t (X : Mem K) => Function.update X (m - 1 - t)
        ((X (m - 1 - t) - Finset.sum (Finset.Ico (m - 1 - t + 1) m)
            (fun k => A (k + (m - 1 - t) * lda) * X k))
          / A ((m - 1 - t) + (m - 1 - t) * lda))) X0 t i = X0 i) := by
  induction t with
  | zero => exact ⟨fun i h1 h2 => by omega, fun i _ => rfl⟩
  | succ t ih =>
    obtain ⟨ih1, ih2⟩ := ih (by omega)
    simp only [forUpTo]
    generalize forUpTo (fun t (X : Mem K) => Function.update X (m - 1 - t)
        ((X (m - 1 - t) - Finset.sum (Finset.Ico (m - 1 - t + 1) m)
            (fun k => A (k + (m - 1 - t) * lda) * X k))
          / A ((m - 1 - t) + (m - 1 - t) * lda))) X0 t = Xt at ih1 ih2 ⊢
    have hsum : ∀ i v, m - 1 - t ≤ i →
        Finset.sum (Finset.Ico (i + 1) m) (fun k => A (k + i * lda) *
          Function.update Xt (m - 1 - t) v k)
        = Finset.sum (Finset.Ico (i + 1) m) (fun k => A (k + i * lda) * Xt k) := by
      intro i v hi
      apply Finset.sum_congr rfl
      intro k hk
      have : k ≠ m - 1 - t := by
        have := (Finset.mem_Ico.mp hk).1
        omega
      rw [Function.update_noteq this]
    constructor
    · intro i hi1 hi2
      rw [hsum i _ (by omega)]
      by_cases heq : i = m - 1 - t
      · subst heq
        rw [Function.update_same, ih2 _ (by omega)]
      · rw [Function.update_noteq heq, ih1 i (by omega) hi2]
    · intro i hi
      rw [Function.update_noteq (by omega), ih2 i (by omega)]

/-- Back substitution: the block returned by `dtrsm_` (left, lower, transpose,
non-unit) satisfies the recurrence of the transposed triangular system. -/
theorem dtrsm_LLTN_rec (m : Nat) (alpha : K) (A : Mem K) (lda : Nat) (B : Mem K)
    (i : Nat) (hi : i < m) :
    dtrsm_LLTN m alpha A lda B i
      = (alpha * B i - Finset.sum (Finset.Ico (i + 1) m)
          (fun k => A (k + i * lda) * dtrsm_LLTN m alpha A lda B k)) / A (i + i * lda) := by
  have h := (dtrsm_LLTN_loop m A lda (fun i => if i < m then alpha * B i else B i) m le_rfl).1
    i (by omega) hi
  simp only [if_pos hi] at h
  exact h

theorem idx_lt_sq {d i c : Nat} (hi : i < d) (hc : c < d) : i + c * d < d * d := by
  calc i + c * d < d + c * d := by omega
    _ = (c + 1) * d := by ring
    _ ≤ d * d := Nat.mul_le_mul_right d hc

theorem formA_apply (n d : Nat) (X junk : Mem K) (i c : Nat) (hi : i < d) (hc : c < d) :
    formA n d X junk (i + c * d)
      = Finset.sum (Finset.range n) (fun l => X (l + i * n) * X (l + c * n)) := by
  unfold formA dgemm_TN
  rw [idx_mod c hi, idx_div c hi, if_pos ⟨hi, hc⟩]
  simp

theorem formA_symm (n d : Nat) (X junk : Mem K) (i c : Nat) (hi : i < d) (hc : c < d) :
    formA n d X junk (i + c * d) = formA n d X junk (c + i * d) := by
  rw [formA_apply n d X junk i c hi hc, formA_apply n d X junk c i hc hi]
  exact Finset.sum_congr rfl (fun l _ => mul_comm _ _)

theorem formP_apply (n d : Nat) (X Y junk : Mem K) (j : Nat) (hj : j < d) :
    formP n d X Y junk j = Finset.sum (Finset.range n) (fun i => X (i + j * n) * Y i) := by
  unfold formP dgemv_T
  rw [if_pos hj]
  simp

/-- A successful factorization leaves in the lower triangle a factor of the
lower triangle of `A`, with a non-zero diagonal. -/
theorem factor_ok (sqrt : K → K) (hsqrt : ∀ x : K, 0 < x → sqrt x * sqrt x = x)
    (d : Nat) (A junk : Mem K) (h0 : (factor sqrt d A junk).1 = 0) :
    (∀ c i, c ≤ i → i < d →
      Finset.sum (Finset.range (c + 1))
        (fun k => (factor sqrt d A junk).2 (i + k * d) * (factor sqrt d A junk).2 (c + k * d))
        = A (i + c * d)) ∧
    (∀ c, c < d → (factor sqrt d A junk).2 (c + c * d) ≠ 0) := by
  unfold factor dpotrf_L at h0 ⊢
  have hinv := dpotrfColumns_ok sqrt hsqrt d (copyLoop (d * d) A junk) d le_rfl h0
  refine ⟨fun c i hci hi => ?_, fun c hc => hinv.diag c hc⟩
  rw [hinv.prod c (by omega) i hci hi, copyLoop_apply, if_pos (idx_lt_sq hi (by omega))]

theorem zeroAbove_entry (d : Nat) (L : Mem K) (i k : Nat) (hi : i < d) (hk : k < d) :
    zeroAbove d L (i + k * d) = if i < k then 0 else L (i + k * d) := by
  rw [zeroAbove_apply, idx_mod k hi, idx_div k hi]
  by_cases h : i < k
  · rw [if_pos ⟨h, hk⟩, if_pos h]
  · rw [if_neg (by tauto), if_neg h]

theorem solveQ_rec (d : Nat) (L P junk : Mem K) (k : Nat) (hk : k < d) :
    solveQ d L P junk k
      = (P k - Finset.sum (Finset.range k) (fun j => L (k + j * d) * solveQ d L P junk j))
          / L (k + k * d) := by
  unfold solveQ
  rw [dtrsm_LLNN_rec d 1 L d _ k hk, copyLoop_apply, if_pos hk, one_mul]

theorem solveB_rec (d : Nat) (L Q junk : Mem K) (i : Nat) (hi : i < d) :
    solveB d L Q junk i
      = (Q i - Finset.sum (Finset.Ico (i + 1) d) (fun k => L (k + i * d) * solveB d L Q junk k))
          / L (i + i * d) := by
  unfold solveB
  rw [dtrsm_LLTN_rec d 1 L d _ i hi, copyLoop_apply, if_pos hi, one_mul]

theorem sum_range_ite_le (d i : Nat) (hi : i < d) (f : Nat → K) :
    Finset.sum (Finset.range d) (fun k => if k ≤ i then f k else 0)
      = Finset.sum (Finset.range (i + 1)) f := by
  rw [← Finset.sum_filter]
  apply Finset.sum_congr _ (fun _ _ => rfl)
  ext k
  simp only [Finset.mem_filter, Finset.mem_range]
  omega

theorem sum_range_ite_ge (d i : Nat) (f : Nat → K) :
    Finset.sum (Finset.range d) (fun k => if i ≤ k then f k else 0)
      = Finset.sum (Finset.Ico i d) f := by
  rw [← Finset.sum_filter]
  apply Finset.sum_congr _ (fun _ _ => rfl)
  ext k
  simp only [Finset.mem_filter, Finset.mem_range, Finset.mem_Ico]
  omega

theorem lowerMat_mul_transpose (d : Nat) (A L : Mem K)
    (hsymm : ∀ i c, i < d → c < d → A (i + c * d) = A (c + i * d))
    (hprod : ∀ c i, c ≤ i → i < d →
      Finset.sum (Finset.range (c + 1)) (fun k => L (i + k * d) * L (c + k * d))
        = A (i + c * d)) :
    sqMat d A = lowerMat d L * (lowerMat d L).transpose := by
  have key : ∀ i c : Fin d, c.val ≤ i.val →
      (lowerMat d L * (lowerMat d L).transpose) i c = A (i.val + c.val * d) := by
    intro i c hci
    rw [Matrix.mul_apply, ← hprod c.val i.val hci i.isLt, ← sum_range_ite_le d c.val c.isLt,
      Finset.sum_range]
    apply Finset.sum_congr rfl
    intro k _
    simp only [lowerMat, Matrix.transpose_apply]
    by_cases hk : k.val ≤ c.val
    · rw [if_pos hk, if_pos hk, if_pos (le_trans hk hci)]
    · rw [if_neg hk, if_neg hk, mul_zero]
  ext i c
  rcases le_total c.val i.val with h | h
  · exact (key i c h).symm
  · have h1 : (lowerMat d L * (lowerMat d L).transpose) i c
        = (lowerMat d L * (lowerMat d L).transpose) c i := by
      rw [Matrix.mul_apply, Matrix.mul_apply]
      exact Finset.sum_congr rfl (fun k _ => by
        simp only [Matrix.transpose_apply]; exact mul_comm _ _)
    rw [h1, key c i h]
    exact hsymm i.val c.val i.isLt c.isLt

theorem lowerMat_det (d : Nat) (L : Mem K) :
    (lowerMat d L).det = Finset.prod Finset.univ (fun i : Fin d => L (i.val + i.val * d)) := by
  rw [Matrix.det_of_lowerTriangular]
  · exact Finset.prod_congr rfl (fun i _ => by simp [lowerMat])
  · intro i j hij
    have : i.val < j.val := hij
    simp only [lowerMat]
    rw [if_neg (by omega)]

theorem lowerMat_det_ne_zero (d : Nat) (L : Mem K) (hdiag : ∀ c, c < d → L (c + c * d) ≠ 0) :
    (lowerMat d L).det ≠ 0 := by
  rw [lowerMat_det]
  exact Finset.prod_ne_zero_iff.mpr (fun i _ => hdiag i.val i.isLt)

theorem lowerMat_zeroAbove (d : Nat) (L : Mem K) :
    lowerMat d (zeroAbove d L) = lowerMat d L := by
  ext i k
  simp only [lowerMat]
  by_cases h : k.val ≤ i.val
  · rw [if_pos h, if_pos h, zeroAbove_entry d L i.val k.val i.isLt k.isLt, if_neg (by omega)]
  · rw [if_neg h, if_neg h]

/-- Forward solve, as a matrix equation. -/
theorem lowerMat_mulVec_solveQ (d : Nat) (L P junk : Mem K)
    (hdiag : ∀ c, c < d → L (c + c * d) ≠ 0) :
    (lowerMat d L).mulVec (vecOf d (solveQ d L P junk)) = vecOf d P := by
  ext i
  simp only [Matrix.mulVec, Matrix.dotProduct, vecOf, lowerMat]
  have h1 : Finset.sum Finset.univ (fun k : Fin d =>
      (if k.val ≤ i.val then L (i.val + k.val * d) else 0) * solveQ d L P junk k.val)
      = Finset.sum (Finset.range d) (fun k =>
        if k ≤ i.val then L (i.val + k * d) * solveQ d L P junk k else 0) := by
    rw [Finset.sum_range]
    exact Finset.sum_congr rfl (fun k _ => by split_ifs <;> simp)
  rw [h1, sum_range_ite_le d i.val i.isLt, Finset.sum_range_succ,
    solveQ_rec d L P junk i.val i.isLt]
  have := hdiag i.val i.isLt
  field_simp

/-- Back solve, as a matrix equation. -/
theorem lowerMat_transpose_mulVec_solveB (d : Nat) (L Q junk : Mem K)
    (hdiag : ∀ c, c < d → L (c + c * d) ≠ 0) :
    (lowerMat d L).transpose.mulVec (vecOf d (solveB d L Q junk)) = vecOf d Q := by
  ext i
  simp only [Matrix.mulVec, Matrix.dotProduct, vecOf, lowerMat, Matrix.transpose_apply]
  have h1 : Finset.sum Finset.univ (fun k : Fin d =>
      (if i.val ≤ k.val then L (k.val + i.val * d) else 0) * solveB d L Q junk k.val)
      = Finset.sum (Finset.range d) (fun k =>
        if i.val ≤ k then L (k + i.val * d) * solveB d L Q junk k else 0) := by
    rw [Finset.sum_range]
    exact Finset.sum_congr rfl (fun k _ => by split_ifs <;> simp)
  rw [h1, sum_range_ite_ge d i.val, Finset.sum_eq_sum_Ico_succ_bot i.isLt,
    solveB_rec d L Q junk i.val i.isLt]
  have := hdiag i.val i.isLt
  field_simp

theorem normalSolve_fail (sqrt : K → K) (n d : Nat) (X Y junk : Mem K)
    (h : (factor sqrt d (formA n d X junk) junk).1 ≠ 0) :
    normalSolve sqrt n d X Y junk = ((factor sqrt d (formA n d X junk) junk).1, none) := by
  unfold normalSolve
  simp only [if_pos h]

theorem normalSolve_ok (sqrt : K → K) (n d : Nat) (X Y junk : Mem K)
    (h : (factor sqrt d (formA n d X junk) junk).1 = 0) :
    normalSolve sqrt n d X Y junk = (0, some
      { A := formA n d X junk, P := formP n d X Y junk,
        L := zeroAbove d (factor sqrt d (formA n d X junk) junk).2,
        Q := solveQ d (zeroAbove d (factor sqrt d (formA n d X junk) junk).2)
          (formP n d X Y junk) junk,
        B := solveB d (zeroAbove d (factor sqrt d (formA n d X junk) junk).2)
          (solveQ d (zeroAbove d (factor sqrt d (formA n d X junk) junk).2)
            (formP n d X Y junk) junk) junk }) := by
  unfold normalSolve
  simp only [h, ne_eq, not_true_eq_false, if_false]

/-- The status returned by the solver is the status of the factorization. -/
theorem normalSolve_info (sqrt : K → K) (n d : Nat) (X Y junk : Mem K) :
    (normalSolve sqrt n d X Y junk).1 = (factor sqrt d (formA n d X junk) junk).1 := by
  by_cases h : (factor sqrt d (formA n d X junk) junk).1 = 0
  · rw [normalSolve_ok sqrt n d X Y junk h, h]
  · rw [normalSolve_fail sqrt n d X Y junk h]

theorem normalSolve_some (sqrt : K → K) (n d : Nat) (X Y junk : Mem K) (sv : Solved K)
    (h : (normalSolve sqrt n d X Y junk).2 = some sv) :
    (factor sqrt d (formA n d X junk) junk).1 = 0 := by
  by_contra hne
  rw [normalSolve_fail sqrt n d X Y junk hne] at h
  exact Option.noConfusion h

/-- The matrix facts behind a successful solve. -/
theorem solved_matrix (sqrt : K → K) (hsqrt : ∀ x : K, 0 < x → sqrt x * sqrt x = x)
    (n d : Nat) (X Y junk : Mem K) (sv : Solved K)
    (h : (normalSolve sqrt n d X Y junk).2 = some sv) :
    sv.A = formA n d X junk ∧ sv.P = formP n d X Y junk ∧
    (sqMat d sv.A).mulVec (vecOf d sv.B) = vecOf d sv.P ∧ (sqMat d sv.A).det ≠ 0 := by
  have h0 := normalSolve_some sqrt n d X Y junk sv h
  rw [normalSolve_ok sqrt n d X Y junk h0] at h
  have hsv := Option.some.inj h
  clear h
  subst hsv
  simp only
  obtain ⟨hprod, hdiag⟩ := factor_ok sqrt hsqrt d (formA n d X junk) junk h0
  have hfac := lowerMat_mul_transpose d (formA n d X junk)
    (factor sqrt d (formA n d X junk) junk).2 (formA_symm n d X junk) hprod
  rw [← lowerMat_zeroAbove] at hfac
  have hdiagz : ∀ c, c < d →
      zeroAbove d (factor sqrt d (formA n d X junk) junk).2 (c + c * d) ≠ 0 := by
    intro c hc
    rw [zeroAbove_entry d _ c c hc hc, if_neg (Nat.lt_irrefl c)]
    exact hdiag c hc
  refine ⟨trivial, trivial, ?_, ?_⟩
  · rw [hfac, ← Matrix.mulVec_mulVec, lowerMat_transpose_mulVec_solveB d _ _ junk hdiagz,
      lowerMat_mulVec_solveQ d _ _ junk hdiagz]
  · rw [hfac, Matrix.det_mul, Matrix.det_transpose]
    exact mul_ne_zero (lowerMat_det_ne_zero d _ hdiagz) (lowerMat_det_ne_zero d _ hdiagz)

theorem sqMat_formA (n d : Nat) (X junk : Mem K) :
    sqMat d (formA n d X junk) = (designMat n d X).transpose * designMat n d X := by
  ext i c
  simp only [sqMat, Matrix.mul_apply, Matrix.transpose_apply, designMat]
  rw [formA_apply n d X junk i.val c.val i.isLt c.isLt, Finset.sum_range]

/-- With fewer rows than columns the normal matrix is singular, so the
factorization cannot succeed. -/
theorem factor_fails_of_lt (sqrt : K → K) (hsqrt : ∀ x : K, 0 < x → sqrt x * sqrt x = x)
    (n d : Nat) (hnd : n < d) (X junk : Mem K) :
    (factor sqrt d (formA n d X junk) junk).1 ≠ 0 := by
  intro h0
  have hsome := normalSolve_ok sqrt n d X junk junk h0
  obtain ⟨_, _, _, hdet⟩ := solved_matrix sqrt hsqrt n d X junk junk _
    (by rw [hsome])
  simp only at hdet
  have hunit : IsUnit (sqMat d (formA n d X junk)) :=
    (Matrix.isUnit_iff_isUnit_det _).mpr (IsUnit.mk0 _ hdet)
  have hrank := Matrix.rank_of_isUnit _ hunit
  rw [sqMat_formA] at hrank
  have h1 := Matrix.rank_mul_le_right (designMat n d X).transpose (designMat n d X)
  have h2 := Matrix.rank_le_card_height (designMat n d X)
  simp only [Fintype.card_fin] at hrank h2
  omega

theorem main_of_fail (sqrt : K → K) (s : K) (deg n : Nat) (recs : List (K × K)) (junk : Mem K)
    (h : (factor sqrt (deg + 1) (formA n (deg + 1) (load s n (deg + 1) recs junk).1 junk) junk).1
      ≠ 0) :
    main sqrt s deg n recs junk =
      { exit := 1,
        INFO := (factor sqrt (deg + 1)
          (formA n (deg + 1) (load s n (deg + 1) recs junk).1 junk) junk).1,
        calls := [Call.dgemm, Call.dgemv, Call.dpotrf], report := none } := by
  unfold main
  simp only [normalSolve_fail sqrt n (deg + 1) _ _ junk h]

theorem main_of_ok (sqrt : K → K) (s : K) (deg n : Nat) (recs : List (K × K)) (junk : Mem K)
    (sv : Solved K)
    (h : (normalSolve sqrt n (deg + 1) (load s n (deg + 1) recs junk).1
      (load s n (deg + 1) recs junk).2.1 junk).2 = some sv) :
    main sqrt s deg n recs junk =
      { exit := 0, INFO := 0,
        calls := [Call.dgemm, Call.dgemv, Call.dpotrf, Call.dtrsm, Call.dtrsm, Call.dgemv],
        report := some
          { sol := sv,
            Yhat := predict s n (deg + 1) (load s n (deg + 1) recs junk).1 sv.B junk,
            coef := (List.range (deg + 1)).map sv.B,
            out := writeOut s n (deg + 1) (load s n (deg + 1) recs junk).1
              (load s n (deg + 1) recs junk).2.1
              (predict s n (deg + 1) (load s n (deg + 1) recs junk).1 sv.B junk),
            stats := rSquared n
              (writeOut s n (deg + 1) (load s n (deg + 1) recs junk).1
                (load s n (deg + 1) recs junk).2.1
                (predict s n (deg + 1) (load s n (deg + 1) recs junk).1 sv.B junk)).Y
              (predict s n (deg + 1) (load s n (deg + 1) recs junk).1 sv.B junk) } } := by
  have h0 := normalSolve_some sqrt n (deg + 1) _ _ junk sv h
  have h1 := normalSolve_ok sqrt n (deg + 1) (load s n (deg + 1) recs junk).1
    (load s n (deg + 1) recs junk).2.1 junk h0
  rw [h1] at h
  have hsv := Option.some.inj h
  subst hsv
  unfold main
  simp only [h1]

theorem predict_apply (s : K) (n d : Nat) (X B junk : Mem K) (i : Nat) (hi : i < n) :
    predict s n d X B junk i
      = Finset.sum (Finset.range d) (fun j => X (i + j * n) * B j) / s := by
  unfold predict
  rw [forUpTo_pointwise (fun _ v => v / s), if_pos hi]
  unfold dgemv_N
  rw [if_pos hi]
  simp

theorem forUpTo_sum_pair (f g : Nat → K) (m : Nat) :
    forUpTo (fun i (a : K × K) => (a.1 + f i, a.2 + g i)) ((0 : K), (0 : K)) m
      = (Finset.sum (Finset.range m) f, Finset.sum (Finset.range m) g) := by
  induction m with
  | zero => simp [forUpTo]
  | succ m ih => simp only [forUpTo, ih, Finset.sum_range_succ]

/-- The statistics of lines 406-418 in closed form. -/
theorem rSquared_eq (n : Nat) (Y Yhat : Mem K) :
    rSquared n Y Yhat =
      { mu := Finset.sum (Finset.range n) (fun i => Y i / (n : K)),
        sse := Finset.sum (Finset.range n) (fun i => (Yhat i - Y i) ^ 2),
        var := Finset.sum (Finset.range n) (fun i =>
          (Y i - Finset.sum (Finset.range n) (fun i => Y i / (n : K))) ^ 2),
        r := (fdiv (Finset.sum (Finset.range n) (fun i => (Yhat i - Y i) ^ 2))
          (Finset.sum (Finset.range n) (fun i =>
            (Y i - Finset.sum (Finset.range n) (fun i => Y i / (n : K))) ^ 2))).map
              (fun q => 1 - q) } := by
  unfold rSquared
  simp only [forUpTo_sum_pair (fun i => Y i / (n : K)) (fun i => (Yhat i - Y i) ^ 2) n,
    forUpTo_sum]

theorem rSquared_congr (n : Nat) (Y Y' Yhat Yhat' : Mem K)
    (hY : ∀ i, i < n → Y i = Y' i) (hYh : ∀ i, i < n → Yhat i = Yhat' i) :
    rSquared n Y Yhat = rSquared n Y' Yhat' := by
  have e1 : Finset.sum (Finset.range n) (fun i => Y i / (n : K))
      = Finset.sum (Finset.range n) (fun i => Y' i / (n : K)) :=
    Finset.sum_congr rfl (fun i hi => by rw [hY i (Finset.mem_range.mp hi)])
  have e2 : Finset.sum (Finset.range n) (fun i => (Yhat i - Y i) ^ 2)
      = Finset.sum (Finset.range n) (fun i => (Yhat' i - Y' i) ^ 2) :=
    Finset.sum_congr rfl (fun i hi => by
      rw [hY i (Finset.mem_range.mp hi), hYh i (Finset.mem_range.mp hi)])
  have e3 : Finset.sum (Finset.range n) (fun i =>
        (Y i - Finset.sum (Finset.range n) (fun i => Y i / (n : K))) ^ 2)
      = Finset.sum (Finset.range n) (fun i =>
        (Y' i - Finset.sum (Finset.range n) (fun i => Y' i / (n : K))) ^ 2) := by
    rw [e1]
    exact Finset.sum_congr rfl (fun i hi => by rw [hY i (Finset.mem_range.mp hi)])
  rw [rSquared_eq, rSquared_eq, e3, e1, e2]

theorem writeRow_loop (s : K) (n i : Nat) (hi : i < n) (X : Mem K) (m : Nat) :
    forUpTo (fun j (st : Mem K × List K) =>
        ((Function.update st.1 (i + j * n) (st.1 (i + j * n) / s)),
          st.2 ++ [(Function.update st.1 (i + j * n) (st.1 (i + j * n) / s)) (i + j * n)]))
      (X, []) m
      = ((fun idx => if idx % n = i ∧ idx / n < m then X idx / s else X idx),
          (List.range m).map (fun j => X (i + j * n) / s)) := by
  induction m with
  | zero => simp [forUpTo]
  | succ m ih =>
    simp only [forUpTo, ih]
    have hm : ¬ ((i + m * n) % n = i ∧ (i + m * n) / n < m) := by
      rw [idx_div m hi]; omega
    refine Prod.ext ?_ ?_
    · funext idx
      simp only [Function.update_apply, if_neg hm]
      by_cases hidx : idx = i + m * n
      · subst hidx
        rw [if_pos rfl, idx_mod m hi, idx_div m hi, if_pos ⟨rfl, Nat.lt_succ_self m⟩]
      · rw [if_neg hidx]
        have hne := mt (idx_eq_iff m idx hi).mpr hidx
        by_cases hc : idx % n = i ∧ idx / n < m
        · rw [if_pos hc, if_pos ⟨hc.1, by omega⟩]
        · rw [if_neg hc, if_neg (by omega)]
    · simp only [Function.update_same, if_neg hm, List.range_succ, List.map_append,
        List.map_cons, List.map_nil]

theorem writeRow_eq (s : K) (n d i : Nat) (hi : i < n) (X : Mem K) :
    writeRow s n d i X
      = ((fun idx => if idx % n = i ∧ idx / n < d then X idx / s else X idx),
          (List.range d).map (fun j => X (i + j * n) / s)) :=
  writeRow_loop s n i hi X d

theorem writeOut_loop (s : K) (n d : Nat) (X Y Yhat : Mem K) (m : Nat) (hm : m ≤ n) :
    (∀ idx, m ≤ idx % n → (forUpTo (writeOutStep s n d Yhat)
        { X := X, Y := Y, raw := [], fit := [], designMx := [] } m).X idx = X idx) ∧
    (forUpTo (writeOutStep s n d Yhat)
        { X := X, Y := Y, raw := [], fit := [], designMx := [] } m).Y
      = (fun idx => if idx < m then Y idx / s else Y idx) ∧
    (forUpTo (writeOutStep s n d Yhat)
        { X := X, Y := Y, raw := [], fit := [], designMx := [] } m).raw
      = (List.range m).map (fun i => (X (i + n) / s, Y i / s)) ∧
    (forUpTo (writeOutStep s n d Yhat)
        { X := X, Y := Y, raw := [], fit := [], designMx := [] } m).fit
      = (List.range m).map (fun i => (X (i + n) / s, Yhat i)) ∧
    (forUpTo (writeOutStep s n d Yhat)
        { X := X, Y := Y, raw := [], fit := [], designMx := [] } m).designMx
      = (List.range m).map (designRow s n d X) := by
  induction m with
  | zero => simp [forUpTo]
  | succ m ih =>
    obtain ⟨ihX, ihY, ihraw, ihfit, ihD⟩ := ih (by omega)
    simp only [forUpTo]
    generalize forUpTo (writeOutStep s n d Yhat)
        { X := X, Y := Y, raw := [], fit := [], designMx := [] } m = w at ihX ihY ihraw ihfit ihD
    have hmn : m < n := by omega
    have hmod : (m + n) % n = m := by
      have := @idx_mod n m 1 hmn
      simpa using this
    have hXmn : w.X (m + n) = X (m + n) := ihX _ (by rw [hmod])
    unfold writeOutStep
    simp only [writeRow_eq s n d m hmn, Function.update_same, hXmn, ihY, ihraw, ihfit, ihD,
      if_neg (Nat.lt_irrefl m), List.range_succ, List.map_append, List.map_cons, List.map_nil]
    refine ⟨?_, ?_, trivial, trivial, ?_⟩
    · intro idx hidx
      rw [if_neg (by omega), Function.update_noteq, ihX idx (by omega)]
      intro h
      rw [h, hmod] at hidx
      omega
    · funext idx
      simp only [Function.update_apply]
      by_cases h : idx = m
      · subst h
        simp
      · have : idx < m + 1 ↔ idx < m := by omega
        simp only [if_neg h, this]
    · congr 1
      simp only [designRow, List.cons.injEq, and_true]
      apply List.map_congr_left
      intro j _
      by_cases hj : j = 1
      · subst hj
        rw [if_pos rfl, one_mul, Function.update_same]
      · rw [if_neg hj, Function.update_noteq, ihX _ (by rw [idx_mod j hmn])]
        intro h
        apply hj
        have h1 := congrArg (fun t => t / n) h
        have h2 := @idx_div n m 1 hmn
        simp only [idx_div j hmn] at h1
        simp only [one_mul] at h2
        omega

theorem writeOut_eq (s : K) (n d : Nat) (X Y Yhat : Mem K) :
    (writeOut s n d X Y Yhat).Y = (fun idx => if idx < n then Y idx / s else Y idx) ∧
    (writeOut s n d X Y Yhat).raw = (List.range n).map (fun i => (X (i + n) / s, Y i / s)) ∧
    (writeOut s n d X Y Yhat).fit = (List.range n).map (fun i => (X (i + n) / s, Yhat i)) ∧
    (writeOut s n d X Y Yhat).designMx = (List.range n).map (designRow s n d X) :=
  (writeOut_loop s n d X Y Yhat n le_rfl).2

/-- A positive square root commutes with a positive scale factor. -/
theorem sqrt_scale (sqrt : K → K) (hsq : ∀ x : K, 0 < x → 0 < sqrt x ∧ sqrt x * sqrt x = x)
    (r x : K) (hr : 0 < r) (hx : 0 < x) : sqrt (r ^ 2 * x) = r * sqrt x := by
  have hrx : 0 < r ^ 2 * x := mul_pos (pow_pos hr 2) hx
  obtain ⟨h1, h2⟩ := hsq _ hrx
  obtain ⟨h3, h4⟩ := hsq _ hx
  have h5 : 0 < r * sqrt x := mul_pos hr h3
  apply (mul_self_inj (le_of_lt h1) (le_of_lt h5)).mp
  rw [h2]
  calc r ^ 2 * x = r ^ 2 * (sqrt x * sqrt x) := by rw [h4]
    _ = r * sqrt x * (r * sqrt x) := by ring

theorem dpotrfPivot_scaled (d : Nat) (r : K) (j : Nat) (hj : j < d) (L L' : Mem K)
    (hrel : ScaledLower d r j L L') :
    dpotrfPivot d j L' = r ^ 2 * dpotrfPivot d j L := by
  unfold dpotrfPivot
  have h1 := hrel j j le_rfl hj
  rw [if_neg (Nat.lt_irrefl j)] at h1
  have h2 : Finset.sum (Finset.range j) (fun k => L' (j + k * d) * L' (j + k * d))
      = r ^ 2 * Finset.sum (Finset.range j) (fun k => L (j + k * d) * L (j + k * d)) := by
    rw [Finset.mul_sum]
    apply Finset.sum_congr rfl
    intro k hk
    have hk' := Finset.mem_range.mp hk
    have := hrel j k (by omega) hj
    rw [if_pos hk'] at this
    rw [this]
    ring
  rw [h1, h2]
  ring

theorem dpotrfColumn_scaled (sqrt : K → K)
    (hsq : ∀ x : K, 0 < x → 0 < sqrt x ∧ sqrt x * sqrt x = x)
    (d : Nat) (r : K) (hr : 0 < r) (j : Nat) (hj : j < d) (L L' : Mem K)
    (hrel : ScaledLower d r j L L') :
    (dpotrfColumn sqrt d d j L').1 = (dpotrfColumn sqrt d d j L).1 ∧
    ((dpotrfColumn sqrt d d j L).1 = 0 →
      ScaledLower d r (j + 1) (dpotrfColumn sqrt d d j L).2 (dpotrfColumn sqrt d d j L').2) := by
  have hpiv := dpotrfPivot_scaled d r j hj L L' hrel
  have hr2 : 0 < r ^ 2 := pow_pos hr 2
  unfold dpotrfColumn
  by_cases hneg : dpotrfPivot d j L ≤ 0
  · have hneg' : dpotrfPivot d j L' ≤ 0 := by
      rw [hpiv]
      exact mul_nonpos_of_nonneg_of_nonpos (le_of_lt hr2) hneg
    rw [if_pos hneg, if_pos hneg']
    exact ⟨rfl, fun h => absurd h (Nat.succ_ne_zero j)⟩
  · have hpos : 0 < dpotrfPivot d j L := lt_of_not_ge hneg
    have hpos' : 0 < dpotrfPivot d j L' := by
      rw [hpiv]
      exact mul_pos hr2 hpos
    rw [if_neg hneg, if_neg (not_le_of_gt hpos')]
    refine ⟨rfl, fun _ => ?_⟩
    have hs : sqrt (dpotrfPivot d j L') = r * sqrt (dpotrfPivot d j L) := by
      rw [hpiv]
      exact sqrt_scale sqrt hsq r _ hr hpos
    intro i k hki hi
    simp only
    rcases Nat.lt_trichotomy k j with hkj | hkj | hkj
    · rw [dpotrfStore_old sqrt d j hj _ L' i k hi hkj, dpotrfStore_old sqrt d j hj _ L i k hi hkj,
        if_pos (by omega)]
      have := hrel i k hki hi
      rw [if_pos hkj] at this
      exact this
    · subst hkj
      rw [if_pos (Nat.lt_succ_self k)]
      rcases Nat.lt_or_eq_of_le hki with hlt | heq
      · rw [dpotrfStore_col sqrt d k _ L' i hlt hi, dpotrfStore_col sqrt d k _ L i hlt hi, hs]
        have h1 := hrel i k hki hi
        rw [if_neg (Nat.lt_irrefl k)] at h1
        have h2 : Finset.sum (Finset.range k) (fun c => L' (i + c * d) * L' (k + c * d))
            = r ^ 2 * Finset.sum (Finset.range k) (fun c => L (i + c * d) * L (k + c * d)) := by
          rw [Finset.mul_sum]
          apply Finset.sum_congr rfl
          intro c hc
          have hc' := Finset.mem_range.mp hc
          have e1 := hrel i c (by omega) hi
          have e2 := hrel k c (by omega) hj
          rw [if_pos hc'] at e1 e2
          rw [e1, e2]
          ring
        rw [h1, h2]
        have hr0 : r ≠ 0 := ne_of_gt hr
        by_cases hz : sqrt (dpotrfPivot d k L) = 0
        · rw [hz]; simp
        · field_simp
          ring
      · subst heq
        rw [dpotrfStore_diag, dpotrfStore_diag, hs]
    · have hn : ¬ ((i + k * d) / d < j + 1 ∧ (i + k * d) / d ≤ (i + k * d) % d) := by
        rw [idx_div k hi]; omega
      rw [dpotrfStore_rest sqrt d j hj _ L' _ hn, dpotrfStore_rest sqrt d j hj _ L _ hn,
        if_neg (by omega)]
      have := hrel i k hki hi
      rw [if_neg (by omega)] at this
      exact this

theorem dpotrfColumns_scaled (sqrt : K → K)
    (hsq : ∀ x : K, 0 < x → 0 < sqrt x ∧ sqrt x * sqrt x = x)
    (d : Nat) (r : K) (hr : 0 < r) (A A' : Mem K) (hrel : ScaledLower d r 0 A A')
    (j : Nat) (hj : j ≤ d) :
    (dpotrfColumns sqrt d d A' j).1 = (dpotrfColumns sqrt d d A j).1 ∧
    ((dpotrfColumns sqrt d d A j).1 = 0 →
      ScaledLower d r j (dpotrfColumns sqrt d d A j).2 (dpotrfColumns sqrt d d A' j).2) := by
  induction j with
  | zero => exact ⟨rfl, fun _ => hrel⟩
  | succ j ih =>
    obtain ⟨ih1, ih2⟩ := ih (by omega)
    simp only [dpotrfColumns]
    rw [ih1]
    by_cases h0 : (dpotrfColumns sqrt d d A j).1 = 0
    · rw [if_pos h0, if_pos h0]
      exact dpotrfColumn_scaled sqrt hsq d r hr j (by omega) _ _ (ih2 h0)
    · rw [if_neg h0, if_neg h0]
      exact ⟨ih1, fun h => absurd h h0⟩

/-- Scaling the normal matrix by `r^2` scales the factor by `r` and leaves the
status unchanged. -/
theorem factor_scaled (sqrt : K → K)
    (hsq : ∀ x : K, 0 < x → 0 < sqrt x ∧ sqrt x * sqrt x = x)
    (d : Nat) (r : K) (hr : 0 < r) (A A' junk : Mem K)
    (hA : ∀ i k, i < d → k < d → A' (i + k * d) = r ^ 2 * A (i + k * d)) :
    (factor sqrt d A' junk).1 = (factor sqrt d A junk).1 ∧
    ((factor sqrt d A junk).1 = 0 → ∀ i k, k ≤ i → i < d →
      (factor sqrt d A' junk).2 (i + k * d) = r * (factor sqrt d A junk).2 (i + k * d)) := by
  unfold factor dpotrf_L
  have hrel : ScaledLower d r 0 (copyLoop (d * d) A junk) (copyLoop (d * d) A' junk) := by
    intro i k hki hi
    rw [copyLoop_apply, copyLoop_apply, if_pos (idx_lt_sq hi (by omega)),
      if_pos (idx_lt_sq hi (by omega)), if_neg (Nat.not_lt_zero k)]
    exact hA i k hi (by omega)
  obtain ⟨h1, h2⟩ := dpotrfColumns_scaled sqrt hsq d r hr _ _ hrel d le_rfl
  refine ⟨h1, fun h0 i k hki hi => ?_⟩
  have := h2 h0 i k hki hi
  rw [if_pos (by omega)] at this
  exact this

theorem solveQ_scaled (d : Nat) (r : K) (hr : r ≠ 0) (L L' P P' junk : Mem K)
    (hL : ∀ i k, k ≤ i → i < d → L' (i + k * d) = r * L (i + k * d))
    (hP : ∀ i, i < d → P' i = r ^ 2 * P i) (k : Nat) (hk : k < d) :
    solveQ d L' P' junk k = r * solveQ d L P junk k := by
  induction k using Nat.strong_induction_on with
  | _ k ih =>
    rw [solveQ_rec d L' P' junk k hk, solveQ_rec d L P junk k hk, hP k hk, hL k k le_rfl hk]
    have h2 : Finset.sum (Finset.range k) (fun j => L' (k + j * d) * solveQ d L' P' junk j)
        = r ^ 2 * Finset.sum (Finset.range k) (fun j => L (k + j * d) * solveQ d L P junk j) := by
      rw [Finset.mul_sum]
      apply Finset.sum_congr rfl
      intro j hj
      have hj' := Finset.mem_range.mp hj
      rw [hL k j (by omega) hk, ih j hj' (by omega)]
      ring
    rw [h2]
    by_cases hz : L (k + k * d) = 0
    · rw [hz]; simp
    · field_simp
      ring

theorem solveB_scaled (d : Nat) (r : K) (hr : r ≠ 0) (L L' Q Q' junk : Mem K)
    (hL : ∀ i k, k ≤ i → i < d → L' (i + k * d) = r * L (i + k * d))
    (hQ : ∀ i, i < d → Q' i = r * Q i) (t : Nat) :
    ∀ i, i < d → d - t ≤ i → solveB d L' Q' junk i = solveB d L Q junk i := by
  induction t with
  | zero => intro i hi h; omega
  | succ t ih =>
    intro i hi _
    rw [solveB_rec d L' Q' junk i hi, solveB_rec d L Q junk i hi, hQ i hi, hL i i le_rfl hi]
    have h2 : Finset.sum (Finset.Ico (i + 1) d) (fun k => L' (k + i * d) * solveB d L' Q' junk k)
        = r * Finset.sum (Finset.Ico (i + 1) d) (fun k => L (k + i * d) * solveB d L Q junk k) := by
      rw [Finset.mul_sum]
      apply Finset.sum_congr rfl
      intro k hk
      obtain ⟨hk1, hk2⟩ := Finset.mem_Ico.mp hk
      rw [hL k i (by omega) hk2, ih k hk2 (by omega)]
      ring
    rw [h2]
    by_cases hz : L (i + i * d) = 0
    · rw [hz]; simp
    · field_simp
      ring

theorem main_INFO (sqrt : K → K) (s : K) (deg n : Nat) (recs : List (K × K)) (junk : Mem K) :
    (main sqrt s deg n recs junk).INFO
      = (factor sqrt (deg + 1)
          (formA n (deg + 1) (load s n (deg + 1) recs junk).1 junk) junk).1 := by
  by_cases h0 : (factor sqrt (deg + 1)
      (formA n (deg + 1) (load s n (deg + 1) recs junk).1 junk) junk).1 = 0
  · have h1 := normalSolve_ok sqrt n (deg + 1) (load s n (deg + 1) recs junk).1
      (load s n (deg + 1) recs junk).2.1 junk h0
    rw [main_of_ok sqrt s deg n recs junk _ (by rw [h1]), h0]
  · rw [main_of_fail sqrt s deg n recs junk h0]

theorem sqMat_mulVec_apply (d : Nat) (A v : Mem K) (i : Nat) (hi : i < d) :
    (sqMat d A).mulVec (vecOf d v) ⟨i, hi⟩
      = Finset.sum (Finset.range d) (fun c => A (i + c * d) * v c) := by
  simp only [Matrix.mulVec, Matrix.dotProduct, sqMat, vecOf]
  rw [Finset.sum_range]

/-- The solve of a successful run, with the matrix facts of `solved_matrix`. -/
theorem main_solved (sqrt : K → K) (hsqrt : ∀ x : K, 0 < x → sqrt x * sqrt x = x)
    (s : K) (deg n : Nat) (recs : List (K × K)) (junk : Mem K)
    (h : (main sqrt s deg n recs junk).INFO = 0) :
    ∃ sv : Solved K,
      (normalSolve sqrt n (deg + 1) (load s n (deg + 1) recs junk).1
        (load s n (deg + 1) recs junk).2.1 junk).2 = some sv ∧
      sv.A = formA n (deg + 1) (load s n (deg + 1) recs junk).1 junk ∧
      sv.P = formP n (deg + 1) (load s n (deg + 1) recs junk).1
        (load s n (deg + 1) recs junk).2.1 junk ∧
      (sqMat (deg + 1) sv.A).mulVec (vecOf (deg + 1) sv.B) = vecOf (deg + 1) sv.P ∧
      (sqMat (deg + 1) sv.A).det ≠ 0 := by
  rw [main_INFO] at h
  have h1 := normalSolve_ok sqrt n (deg + 1) (load s n (deg + 1) recs junk).1
    (load s n (deg + 1) recs junk).2.1 junk h
  have h2 := congrArg Prod.snd h1
  simp only at h2
  exact ⟨_, h2, solved_matrix sqrt hsqrt n (deg + 1) _ _ junk _ h2⟩

/-- The blocks a successful run reads after the solve, in closed form. -/
theorem main_report (sqrt : K → K) (s : K) (hs : s ≠ 0) (deg n : Nat) (recs : List (K × K))
    (junk : Mem K) (hlen : recs.length = n) (sv : Solved K)
    (h : (normalSolve sqrt n (deg + 1) (load s n (deg + 1) recs junk).1
      (load s n (deg + 1) recs junk).2.1 junk).2 = some sv) :
    ∃ rep : Report K, (main sqrt s deg n recs junk).report = some rep ∧ rep.sol = sv ∧
      rep.coef = (List.range (deg + 1)).map sv.B ∧
      (∀ i, i < n → rep.Yhat i
        = Finset.sum (Finset.range (deg + 1)) (fun j => obsX recs i ^ j * sv.B j)) ∧
      (∀ i, i < n → rep.out.Y i = obsY recs i) ∧
      rep.stats = rSquared n rep.out.Y rep.Yhat ∧
      rep.out.raw = (List.range n).map (fun i => (obsX recs i, obsY recs i)) ∧
      rep.out.fit = (List.range n).map (fun i => (obsX recs i, rep.Yhat i)) ∧
      rep.out.designMx = (List.range n).map (fun i =>
        (List.range (deg + 1)).map (fun j =>
          if j = 1 then obsX recs i / s else obsX recs i ^ j)) := by
  rw [main_of_ok sqrt s deg n recs junk sv h]
  refine ⟨_, rfl, rfl, rfl, ?_, ?_, rfl, ?_, ?_, ?_⟩
  · intro i hi
    simp only
    rw [predict_apply s n (deg + 1) _ _ junk i hi, Finset.sum_div]
    apply Finset.sum_congr rfl
    intro j hj
    rw [load_X s n (deg + 1) recs junk hlen i j hi (le_of_lt (Finset.mem_range.mp hj))]
    field_simp
    ring
  · intro i hi
    simp only
    rw [(writeOut_eq s n (deg + 1) _ _ _).1]
    simp only [if_pos hi]
    rw [load_Y s n (deg + 1) recs junk hlen i hi]
    field_simp
  · simp only
    rw [(writeOut_eq s n (deg + 1) _ _ _).2.1]
    apply List.map_congr_left
    intro i hi
    have hi' := List.mem_range.mp hi
    have h1 := load_X s n (deg + 1) recs junk hlen i 1 hi' (by omega)
    rw [one_mul] at h1
    rw [h1, load_Y s n (deg + 1) recs junk hlen i hi']
    field_simp
  · simp only
    rw [(writeOut_eq s n (deg + 1) _ _ _).2.2.1]
    apply List.map_congr_left
    intro i hi
    have hi' := List.mem_range.mp hi
    have h1 := load_X s n (deg + 1) recs junk hlen i 1 hi' (by omega)
    rw [one_mul] at h1
    rw [h1]
    field_simp
  · simp only
    rw [(writeOut_eq s n (deg + 1) _ _ _).2.2.2]
    apply List.map_congr_left
    intro i hi
    have hi' := List.mem_range.mp hi
    unfold designRow
    apply List.map_congr_left
    intro j hj
    have hj' := List.mem_range.mp hj
    have h1 := load_X s n (deg + 1) recs junk hlen i 1 hi' (by omega)
    rw [one_mul] at h1
    rw [h1, load_X s n (deg + 1) recs junk hlen i j hi' (by omega)]
    by_cases hj1 : j = 1
    · rw [if_pos hj1, if_pos hj1]
      field_simp
    · rw [if_neg hj1, if_neg hj1]
      field_simp

theorem factor_one (sqrt : K → K) (A junk : Mem K) :
    (factor sqrt 1 A junk).1 = if A 0 ≤ 0 then 1 else 0 := by
  unfold factor dpotrf_L
  simp only [dpotrfColumns, if_true, dpotrfColumn, dpotrfPivot, Finset.range_zero,
    Finset.sum_empty, sub_zero, Nat.zero_mul, Nat.add_zero, Nat.mul_one]
  rw [copyLoop_apply, if_pos Nat.zero_lt_one]
  split_ifs <;> rfl

theorem degree_zero_A (s : K) (n : Nat) (recs : List (K × K)) (junk : Mem K)
    (hlen : recs.length = n) :
    (∀ l, l < n → (load s n 1 recs junk).1 l = s) ∧
    formA n 1 (load s n 1 recs junk).1 junk 0 = (n : K) * (s * s) := by
  have hX : ∀ l, l < n → (load s n 1 recs junk).1 l = s := by
    intro l hl
    have := load_X s n 1 recs junk hlen l 0 hl (by omega)
    simpa using this
  refine ⟨hX, ?_⟩
  have := formA_apply n 1 (load s n 1 recs junk).1 junk 0 0 (by omega) (by omega)
  simp only [Nat.zero_mul, Nat.add_zero] at this
  rw [this, Finset.sum_congr rfl (fun l hl => by
    rw [hX l (Finset.mem_range.mp hl)] : ∀ l ∈ Finset.range n,
      (load s n 1 recs junk).1 l * (load s n 1 recs junk).1 l = s * s)]
  simp

/-- A constant fit of at least one record always factors: the only pivot is `n*s^2`. -/
theorem degree_zero_INFO (sqrt : K → K) (s : K) (hs : s ≠ 0) (n : Nat) (hn : 1 ≤ n)
    (recs : List (K × K)) (junk : Mem K) (hlen : recs.length = n) :
    (main sqrt s 0 n recs junk).INFO = 0 := by
  have hnpos : (0 : K) < (n : K) := by exact_mod_cast hn
  have hss : 0 < s * s := mul_self_pos.mpr hs
  rw [main_INFO]
  show (factor sqrt 1 (formA n 1 (load s n 1 recs junk).1 junk) junk).1 = 0
  rw [factor_one, (degree_zero_A s n recs junk hlen).2,
    if_neg (not_le_of_gt (mul_pos hnpos hss))]

/-- With `X` and `Y` lying apart, a constant fit of `n ≥ 1` records returns the mean
of the targets: the out-of-block stores are the only reason the run does not. -/
theorem separated_constant_fit_is_mean (sqrt : K → K) (hsqrt : ∀ x : K, 0 < x → sqrt x * sqrt x = x)
    (s : K) (hs : s ≠ 0) (n : Nat) (hn : 1 ≤ n) (recs : List (K × K)) (junk : Mem K)
    (hlen : recs.length = n) :
    ∃ rep : Report K, (main sqrt s 0 n recs junk).report = some rep ∧
      rep.sol.B 0 = specMean n (obsY recs) := by
  obtain ⟨hX, hA0⟩ := degree_zero_A s n recs junk hlen
  have hnpos : (0 : K) < (n : K) := by exact_mod_cast hn
  have hss : 0 < s * s := mul_self_pos.mpr hs
  have hinfo := degree_zero_INFO sqrt s hs n hn recs junk hlen
  obtain ⟨sv, hsv, hA, hP, hmul, _⟩ := main_solved sqrt hsqrt s 0 n recs junk hinfo
  obtain ⟨rep, hrep, hsol, _⟩ := main_report sqrt s hs 0 n recs junk hlen sv hsv
  refine ⟨rep, hrep, ?_⟩
  rw [hsol]
  simp only [Nat.zero_add] at hA hP
  have hmul1 : (sqMat 1 sv.A).mulVec (vecOf 1 sv.B) = vecOf 1 sv.P := hmul
  have h3 := congrFun hmul1 ⟨0, by omega⟩
  rw [sqMat_mulVec_apply] at h3
  simp only [vecOf, Finset.sum_range_one, Nat.zero_mul, Nat.add_zero] at h3
  rw [hA, hP, hA0, formP_apply n 1 _ _ junk 0 (by omega)] at h3
  have hP0 : Finset.sum (Finset.range n) (fun i =>
      (load s n 1 recs junk).1 (i + 0 * n) * (load s n 1 recs junk).2.1 i)
      = (s * s) * Finset.sum (Finset.range n) (obsY recs) := by
    rw [Finset.mul_sum]
    apply Finset.sum_congr rfl
    intro i hi
    have hi' := Finset.mem_range.mp hi
    rw [Nat.zero_mul, Nat.add_zero, hX i hi', load_Y s n 1 recs junk hlen i hi']
    ring
  rw [hP0] at h3
  unfold specMean
  have hn0 : (n : K) ≠ 0 := ne_of_gt hnpos
  field_simp
  have hss0 : s * s ≠ 0 := ne_of_gt hss
  apply mul_left_cancel₀ hss0
  rw [← h3]
  ring

/-- With `X` and `Y` lying apart, the coefficients and `R²` do not depend on the
positive scale factor: the out-of-block stores are the only reason they do. -/
theorem separated_scaling_invariance (sqrt : K → K)
    (hsq : ∀ x : K, 0 < x → 0 < sqrt x ∧ sqrt x * sqrt x = x)
    (s s' : K) (hs : 0 < s) (hs' : 0 < s') (deg n : Nat) (recs : List (K × K)) (junk : Mem K)
    (hlen : recs.length = n) :
    (main sqrt s deg n recs junk).exit = (main sqrt s' deg n recs junk).exit ∧
    (main sqrt s deg n recs junk).report.map (fun rep => (rep.coef, rep.stats.r))
      = (main sqrt s' deg n recs junk).report.map (fun rep => (rep.coef, rep.stats.r)) := by
  have hs0 : s ≠ 0 := ne_of_gt hs
  have hs0' : s' ≠ 0 := ne_of_gt hs'
  have hr : 0 < s' / s := div_pos hs' hs
  have hr0 : s' / s ≠ 0 := ne_of_gt hr
  have hX : ∀ l j, l < n → j ≤ deg + 1 →
      (load s' n (deg + 1) recs junk).1 (l + j * n)
        = s' / s * (load s n (deg + 1) recs junk).1 (l + j * n) := by
    intro l j hl hj
    rw [load_X s' n (deg + 1) recs junk hlen l j hl hj,
      load_X s n (deg + 1) recs junk hlen l j hl hj]
    field_simp
    ring
  have hYs : ∀ l, l < n →
      (load s' n (deg + 1) recs junk).2.1 l = s' / s * (load s n (deg + 1) recs junk).2.1 l := by
    intro l hl
    rw [load_Y s' n (deg + 1) recs junk hlen l hl, load_Y s n (deg + 1) recs junk hlen l hl]
    field_simp
    ring
  have hA : ∀ i k, i < deg + 1 → k < deg + 1 →
      formA n (deg + 1) (load s' n (deg + 1) recs junk).1 junk (i + k * (deg + 1))
        = (s' / s) ^ 2
          * formA n (deg + 1) (load s n (deg + 1) recs junk).1 junk (i + k * (deg + 1)) := by
    intro i k hi hk
    rw [formA_apply n (deg + 1) _ junk i k hi hk, formA_apply n (deg + 1) _ junk i k hi hk,
      Finset.mul_sum]
    apply Finset.sum_congr rfl
    intro l hl
    have hl' := Finset.mem_range.mp hl
    rw [hX l i hl' (by omega), hX l k hl' (by omega)]
    ring
  have hP : ∀ j, j < deg + 1 →
      formP n (deg + 1) (load s' n (deg + 1) recs junk).1
          (load s' n (deg + 1) recs junk).2.1 junk j
        = (s' / s) ^ 2 * formP n (deg + 1) (load s n (deg + 1) recs junk).1
          (load s n (deg + 1) recs junk).2.1 junk j := by
    intro j hj
    rw [formP_apply n (deg + 1) _ _ junk j hj, formP_apply n (deg + 1) _ _ junk j hj,
      Finset.mul_sum]
    apply Finset.sum_congr rfl
    intro l hl
    have hl' := Finset.mem_range.mp hl
    rw [hX l j hl' (by omega), hYs l hl']
    ring
  obtain ⟨hinfo, hL⟩ := factor_scaled sqrt hsq (deg + 1) (s' / s) hr
    (formA n (deg + 1) (load s n (deg + 1) recs junk).1 junk)
    (formA n (deg + 1) (load s' n (deg + 1) recs junk).1 junk) junk hA
  by_cases h0 : (factor sqrt (deg + 1)
      (formA n (deg + 1) (load s n (deg + 1) recs junk).1 junk) junk).1 = 0
  · have h0' := hinfo.trans h0
    have hLz : ∀ i k, k ≤ i → i < deg + 1 →
        zeroAbove (deg + 1) (factor sqrt (deg + 1)
          (formA n (deg + 1) (load s' n (deg + 1) recs junk).1 junk) junk).2 (i + k * (deg + 1))
        = s' / s * zeroAbove (deg + 1) (factor sqrt (deg + 1)
          (formA n (deg + 1) (load s n (deg + 1) recs junk).1 junk) junk).2
            (i + k * (deg + 1)) := by
      intro i k hki hi
      rw [zeroAbove_entry _ _ i k hi (by omega), zeroAbove_entry _ _ i k hi (by omega),
        if_neg (by omega), if_neg (by omega)]
      exact hL h0 i k hki hi
    have e1 := congrArg Prod.snd (normalSolve_ok sqrt n (deg + 1)
      (load s n (deg + 1) recs junk).1 (load s n (deg + 1) recs junk).2.1 junk h0)
    have e2 := congrArg Prod.snd (normalSolve_ok sqrt n (deg + 1)
      (load s' n (deg + 1) recs junk).1 (load s' n (deg + 1) recs junk).2.1 junk h0')
    simp only at e1 e2
    have hB : ∀ j, j < deg + 1 →
        solveB (deg + 1) (zeroAbove (deg + 1) (factor sqrt (deg + 1)
            (formA n (deg + 1) (load s' n (deg + 1) recs junk).1 junk) junk).2)
          (solveQ (deg + 1) (zeroAbove (deg + 1) (factor sqrt (deg + 1)
              (formA n (deg + 1) (load s' n (deg + 1) recs junk).1 junk) junk).2)
            (formP n (deg + 1) (load s' n (deg + 1) recs junk).1
              (load s' n (deg + 1) recs junk).2.1 junk) junk) junk j
        = solveB (deg + 1) (zeroAbove (deg + 1) (factor sqrt (deg + 1)
            (formA n (deg + 1) (load s n (deg + 1) recs junk).1 junk) junk).2)
          (solveQ (deg + 1) (zeroAbove (deg + 1) (factor sqrt (deg + 1)
              (formA n (deg + 1) (load s n (deg + 1) recs junk).1 junk) junk).2)
            (formP n (deg + 1) (load s n (deg + 1) recs junk).1
              (load s n (deg + 1) recs junk).2.1 junk) junk) junk j := by
      intro j hj
      exact solveB_scaled (deg + 1) (s' / s) hr0 _ _ _ _ junk hLz
        (fun i hi => solveQ_scaled (deg + 1) (s' / s) hr0 _ _ _ _ junk hLz hP i hi)
        (deg + 1) j hj (by omega)
    obtain ⟨rep, hrep, hsol, hcoef, hYhat, hY, hstats, _⟩ :=
      main_report sqrt s hs0 deg n recs junk hlen _ e1
    obtain ⟨rep', hrep', hsol', hcoef', hYhat', hY', hstats', _⟩ :=
      main_report sqrt s' hs0' deg n recs junk hlen _ e2
    simp only at hcoef hcoef' hYhat hYhat'
    have hex : (main sqrt s deg n recs junk).exit = 0 := by
      rw [main_of_ok sqrt s deg n recs junk _ e1]
    have hex' : (main sqrt s' deg n recs junk).exit = 0 := by
      rw [main_of_ok sqrt s' deg n recs junk _ e2]
    refine ⟨hex.trans hex'.symm, ?_⟩
    rw [hrep, hrep']
    simp only [Option.map_some', Option.some.injEq, Prod.mk.injEq]
    constructor
    · rw [hcoef, hcoef']
      apply List.map_congr_left
      intro j hj
      exact (hB j (List.mem_range.mp hj)).symm
    · rw [hstats, hstats']
      have hYY : ∀ i, i < n → rep.out.Y i = rep'.out.Y i := fun i hi => by
        rw [hY i hi, hY' i hi]
      have hYh : ∀ i, i < n → rep.Yhat i = rep'.Yhat i := fun i hi => by
        rw [hYhat i hi, hYhat' i hi]
        apply Finset.sum_congr rfl
        intro j hj
        rw [hB j (Finset.mem_range.mp hj)]
      rw [rSquared_congr n rep.out.Y rep'.out.Y rep.Yhat rep'.Yhat hYY hYh]
  · have h0' : (factor sqrt (deg + 1)
        (formA n (deg + 1) (load s' n (deg + 1) recs junk).1 junk) junk).1 ≠ 0 := by
      rw [hinfo]; exact h0
    rw [main_of_fail sqrt s deg n recs junk h0, main_of_fail sqrt s' deg n recs junk h0']
    exact ⟨rfl, rfl⟩

theorem copyLoop_lt (m : Nat) (src dst : Mem K) (idx : Nat) (h : idx < m) :
    copyLoop m src dst idx = src idx := by
  rw [copyLoop_apply, if_pos h]

/-- The status of the factorization of a matrix of order two. -/
theorem factor_two (sqrt : K → K) (A junk : Mem K) :
    (factor sqrt 2 A junk).1
      = if A 0 ≤ 0 then 1
        else if A 3 - A 1 / sqrt (A 0) * (A 1 / sqrt (A 0)) ≤ 0 then 2 else 0 := by
  unfold factor dpotrf_L
  simp only [dpotrfColumns, if_true, dpotrfColumn, dpotrfPivot, Finset.range_zero,
    Finset.sum_empty, sub_zero, Nat.zero_mul, Nat.add_zero, Finset.sum_range_one]
  rw [copyLoop_lt 4 A junk 0 (by omega)]
  by_cases h0 : A 0 ≤ 0
  · simp only [if_pos h0]
    simp
  · simp only [if_neg h0, if_true]
    have e1 : dpotrfStore sqrt 2 2 0 (A 0) (copyLoop (2 * 2) A junk) (1 + 1 * 2) = A 3 := by
      unfold dpotrfStore
      simp [copyLoop_lt 4 A junk 3 (by omega)]
    have e2 : dpotrfStore sqrt 2 2 0 (A 0) (copyLoop (2 * 2) A junk) 1 = A 1 / sqrt (A 0) := by
      unfold dpotrfStore
      simp [copyLoop_lt 4 A junk 1 (by omega)]
    rw [e1, e2]
    split_ifs <;> rfl

theorem real_sqrt_sq : ∀ x : ℝ, 0 < x → Real.sqrt x * Real.sqrt x = x :=
  fun _ hx => Real.mul_self_sqrt (le_of_lt hx)

theorem real_sqrt_pos_sq : ∀ x : ℝ, 0 < x → 0 < Real.sqrt x ∧ Real.sqrt x * Real.sqrt x = x :=
  fun _ hx => ⟨Real.sqrt_pos.mpr hx, Real.mul_self_sqrt (le_of_lt hx)⟩

theorem div_sqrt_mul (a b x : ℝ) (hx : 0 < x) :
    a / Real.sqrt x * (b / Real.sqrt x) = a * b / x := by
  rw [div_mul_div_comm, real_sqrt_sq x hx]

theorem line_example_A :
    formA 3 2 (load (numstab : ℝ) 3 2 lineRecs zeroHeap).1 zeroHeap 0 = 30000 ∧
    formA 3 2 (load (numstab : ℝ) 3 2 lineRecs zeroHeap).1 zeroHeap 1 = 30000 ∧
    formA 3 2 (load (numstab : ℝ) 3 2 lineRecs zeroHeap).1 zeroHeap 3 = 50000 := by
  have hX : ∀ l j, l < 3 → j ≤ 2 →
      (load (numstab : ℝ) 3 2 lineRecs zeroHeap).1 (l + j * 3) = obsX (lineRecs : List (ℝ × ℝ)) l ^ j * numstab :=
    fun l j hl hj => load_X numstab 3 2 lineRecs zeroHeap rfl l j hl hj
  have a0 := formA_apply 3 2 (load (numstab : ℝ) 3 2 lineRecs zeroHeap).1 zeroHeap 0 0
    (by omega) (by omega)
  have a1 := formA_apply 3 2 (load (numstab : ℝ) 3 2 lineRecs zeroHeap).1 zeroHeap 1 0
    (by omega) (by omega)
  have a3 := formA_apply 3 2 (load (numstab : ℝ) 3 2 lineRecs zeroHeap).1 zeroHeap 1 1
    (by omega) (by omega)
  simp only [Finset.sum_range_succ, Finset.sum_range_zero, hX 0 0 (by omega) (by omega),
    hX 1 0 (by omega) (by omega), hX 2 0 (by omega) (by omega), hX 0 1 (by omega) (by omega),
    hX 1 1 (by omega) (by omega), hX 2 1 (by omega) (by omega)] at a0 a1 a3
  simp only [obsX, lineRecs, numstab, List.getD_cons_zero, List.getD_cons_succ] at a0 a1 a3
  exact ⟨a0.trans (by norm_num), a1.trans (by norm_num), a3.trans (by norm_num)⟩

/-- The factorization succeeds on the straight-line example. -/
theorem line_example_INFO :
    (main Real.sqrt (numstab : ℝ) 1 3 lineRecs zeroHeap).INFO = 0 := by
  rw [main_INFO]
  show (factor Real.sqrt 2 (formA 3 2 (load (numstab : ℝ) 3 2 lineRecs zeroHeap).1 zeroHeap)
    zeroHeap).1 = 0
  obtain ⟨a0, a1, a3⟩ := line_example_A
  rw [factor_two, a0, a1, a3, div_sqrt_mul _ _ _ (by norm_num)]
  norm_num

theorem line_example_solver :
    (normalSolve Real.sqrt 3 2 (load (numstab : ℝ) 3 2 lineRecs zeroHeap).1
      (load (numstab : ℝ) 3 2 lineRecs zeroHeap).2.1 zeroHeap).1 = 0 := by
  rw [normalSolve_info]
  exact (main_INFO Real.sqrt (numstab : ℝ) 1 3 lineRecs zeroHeap).symm.trans line_example_INFO

/-- The function `main` is lines 178-439 applied to the blocks the read loop leaves. -/
theorem main_eq_fitFrom (sqrt : K → K) (s : K) (deg n : Nat) (recs : List (K × K))
    (junk : Mem K) :
    main sqrt s deg n recs junk
      = fitFrom sqrt s deg n (load s n (deg + 1) recs junk).1
          (load s n (deg + 1) recs junk).2.1 junk := rfl

theorem mainAt_of_ok (gap : Nat) (sqrt : K → K) (s : K) (deg n : Nat) (recs : List (K × K))
    (junk : Mem K) (sv : Solved K)
    (h : (normalSolve sqrt n (deg + 1) (readRecordsAt s n (deg + 1) gap recs 0 junk)
      (fun i => readRecordsAt s n (deg + 1) gap recs 0 junk (gap + i)) junk).2 = some sv) :
    mainAt gap sqrt s deg n recs junk =
      { exit := 0, INFO := 0,
        calls := [Call.dgemm, Call.dgemv, Call.dpotrf, Call.dtrsm, Call.dtrsm, Call.dgemv],
        report := some
          { sol := sv,
            Yhat := predict s n (deg + 1) (readRecordsAt s n (deg + 1) gap recs 0 junk) sv.B junk,
            coef := (List.range (deg + 1)).map sv.B,
            out :=
              { X := (writeOutAt s n (deg + 1) gap (readRecordsAt s n (deg + 1) gap recs 0 junk)
                  (predict s n (deg + 1) (readRecordsAt s n (deg + 1) gap recs 0 junk)
                    sv.B junk)).H,
                Y := fun i => (writeOutAt s n (deg + 1) gap
                  (readRecordsAt s n (deg + 1) gap recs 0 junk)
                  (predict s n (deg + 1) (readRecordsAt s n (deg + 1) gap recs 0 junk)
                    sv.B junk)).H (gap + i),
                raw := (writeOutAt s n (deg + 1) gap (readRecordsAt s n (deg + 1) gap recs 0 junk)
                  (predict s n (deg + 1) (readRecordsAt s n (deg + 1) gap recs 0 junk)
                    sv.B junk)).raw,
                fit := (writeOutAt s n (deg + 1) gap (readRecordsAt s n (deg + 1) gap recs 0 junk)
                  (predict s n (deg + 1) (readRecordsAt s n (deg + 1) gap recs 0 junk)
                    sv.B junk)).fit,
                designMx := (writeOutAt s n (deg + 1) gap
                  (readRecordsAt s n (deg + 1) gap recs 0 junk)
                  (predict s n (deg + 1) (readRecordsAt s n (deg + 1) gap recs 0 junk)
                    sv.B junk)).designMx },
            stats := rSquared n
              (fun i => (writeOutAt s n (deg + 1) gap
                (readRecordsAt s n (deg + 1) gap recs 0 junk)
                (predict s n (deg + 1) (readRecordsAt s n (deg + 1) gap recs 0 junk)
                  sv.B junk)).H (gap + i))
              (predict s n (deg + 1) (readRecordsAt s n (deg + 1) gap recs 0 junk)
                sv.B junk) } } := by
  have h0 := normalSolve_some sqrt n (deg + 1) _ _ junk sv h
  have h1 := normalSolve_ok sqrt n (deg + 1) (readRecordsAt s n (deg + 1) gap recs 0 junk)
    (fun i => readRecordsAt s n (deg + 1) gap recs 0 junk (gap + i)) junk h0
  rw [h1] at h
  have hsv := Option.some.inj h
  subst hsv
  unfold mainAt
  simp only [h1]

/-- The heap after the read loop for degree `0` and the points `(0,0), (1,1),
(2,2)`, with `Y` four doubles after `X`: the stores `X[4]` and `X[5]` of the
fill loop have replaced `Y[0]` and `Y[1]`. -/
theorem heap_example_cells (s : ℝ) :
    readRecordsAt s 3 1 4 lineRecs 0 zeroHeap 0 = s ∧
    readRecordsAt s 3 1 4 lineRecs 0 zeroHeap 1 = s ∧
    readRecordsAt s 3 1 4 lineRecs 0 zeroHeap 2 = s ∧
    readRecordsAt s 3 1 4 lineRecs 0 zeroHeap 4 = s ∧
    readRecordsAt s 3 1 4 lineRecs 0 zeroHeap 5 = 2 * s ∧
    readRecordsAt s 3 1 4 lineRecs 0 zeroHeap 6 = 2 * s := by
  simp [readRecordsAt, lineRecs, fillRow, forUpTo, Function.update_apply, zeroHeap]

/-- The cells of `Y` after the write-out loop for three rows, one column and
`Y` four doubles after `X`: line 388 divides `Y[0]` and `Y[1]` a second time. -/
theorem writeOutAt_example (s : ℝ) (H Yhat : Mem ℝ) :
    (writeOutAt s 3 1 4 H Yhat).H 4 = H 4 / s / s ∧
    (writeOutAt s 3 1 4 H Yhat).H 5 = H 5 / s / s ∧
    (writeOutAt s 3 1 4 H Yhat).H 6 = H 6 / s := by
  simp [writeOutAt, forUpTo, writeOutStepAt, writeRow, Function.update_apply]

/-- The run for degree `0` on the points `(0,0), (1,1), (2,2)` with `Y` four
doubles after `X`: the coefficient and the statistics it reports. -/
theorem heap_example_run (s : ℝ) (hs : s ≠ 0) :
    ∃ rep : Report ℝ, (mainAt 4 Real.sqrt s 0 3 lineRecs zeroHeap).report = some rep ∧
      rep.coef = [5 / 3] ∧
      rep.stats = rSquared 3 (blockOf [1 / s, 2 / s, 2]) (fun _ => 5 / 3) := by
  obtain ⟨c0, c1, c2, c4, c5, c6⟩ := heap_example_cells s
  have hss : 0 < s * s := mul_self_pos.mpr hs
  have hA0 : formA 3 1 (readRecordsAt s 3 1 4 lineRecs 0 zeroHeap) zeroHeap 0 = 3 * (s * s) := by
    have := formA_apply 3 1 (readRecordsAt s 3 1 4 lineRecs 0 zeroHeap) zeroHeap 0 0
      (by omega) (by omega)
    simp only [Nat.zero_mul, Nat.add_zero, Finset.sum_range_succ, Finset.sum_range_zero,
      c0, c1, c2] at this
    rw [this]
    ring
  have hP0 : formP 3 1 (readRecordsAt s 3 1 4 lineRecs 0 zeroHeap)
      (fun i => readRecordsAt s 3 1 4 lineRecs 0 zeroHeap (4 + i)) zeroHeap 0
      = 5 * (s * s) := by
    have := formP_apply 3 1 (readRecordsAt s 3 1 4 lineRecs 0 zeroHeap)
      (fun i => readRecordsAt s 3 1 4 lineRecs 0 zeroHeap (4 + i)) zeroHeap 0 (by omega)
    simp only [Nat.zero_mul, Nat.add_zero, Finset.sum_range_succ, Finset.sum_range_zero,
      c0, c1, c2, c4, c5, c6] at this
    rw [this]
    ring
  have h0 : (factor Real.sqrt (0 + 1)
      (formA 3 (0 + 1) (readRecordsAt s 3 (0 + 1) 4 lineRecs 0 zeroHeap) zeroHeap) zeroHeap).1
      = 0 := by
    show (factor Real.sqrt 1
      (formA 3 1 (readRecordsAt s 3 1 4 lineRecs 0 zeroHeap) zeroHeap) zeroHeap).1 = 0
    rw [factor_one, hA0, if_neg (not_le_of_gt (by positivity))]
  have h1 := normalSolve_ok Real.sqrt 3 (0 + 1) (readRecordsAt s 3 (0 + 1) 4 lineRecs 0 zeroHeap)
    (fun i => readRecordsAt s 3 (0 + 1) 4 lineRecs 0 zeroHeap (4 + i)) zeroHeap h0
  have h2 := congrArg Prod.snd h1
  simp only at h2
  obtain ⟨hA, hP, hmul, _⟩ := solved_matrix Real.sqrt real_sqrt_sq 3 (0 + 1) _ _ zeroHeap _ h2
  generalize hsv : ({ A := _, P := _, L := _, Q := _, B := _ } : Solved ℝ) = sv at h2 hA hP hmul
  have hmul1 : (sqMat 1 sv.A).mulVec (vecOf 1 sv.B) = vecOf 1 sv.P := hmul
  have h3 := congrFun hmul1 ⟨0, by omega⟩
  rw [sqMat_mulVec_apply] at h3
  simp only [vecOf, Finset.sum_range_one, Nat.zero_mul, Nat.add_zero] at h3
  have hA' : sv.A 0 = 3 * (s * s) := by rw [hA]; exact hA0
  have hP' : sv.P 0 = 5 * (s * s) := by rw [hP]; exact hP0
  rw [hA', hP'] at h3
  have hB : sv.B 0 = 5 / 3 := by
    have hss0 : s * s ≠ 0 := ne_of_gt hss
    field_simp
    apply mul_left_cancel₀ hss0
    linarith
  have hYhat : ∀ i, i < 3 →
      predict s 3 (0 + 1) (readRecordsAt s 3 (0 + 1) 4 lineRecs 0 zeroHeap) sv.B zeroHeap i
        = 5 / 3 := by
    intro i hi
    rw [predict_apply s 3 (0 + 1) _ _ zeroHeap i hi]
    simp only [Nat.zero_add, Finset.sum_range_one, Nat.zero_mul, Nat.add_zero, hB]
    interval_cases i
    · rw [c0]; field_simp; ring
    · rw [c1]; field_simp; ring
    · rw [c2]; field_simp; ring
  obtain ⟨w4, w5, w6⟩ := writeOutAt_example s (readRecordsAt s 3 1 4 lineRecs 0 zeroHeap)
    (predict s 3 (0 + 1) (readRecordsAt s 3 (0 + 1) 4 lineRecs 0 zeroHeap) sv.B zeroHeap)
  rw [mainAt_of_ok 4 Real.sqrt s 0 3 lineRecs zeroHeap sv h2]
  refine ⟨_, rfl, ?_, ?_⟩
  · show [sv.B 0] = [5 / 3]
    rw [hB]
  · simp only
    apply rSquared_congr
    · intro i hi
      interval_cases i
      · show (writeOutAt s 3 1 4 _ _).H 4 = _
        rw [w4, c4]
        simp [blockOf]
        field_simp
      · show (writeOutAt s 3 1 4 _ _).H 5 = _
        rw [w5, c5]
        simp [blockOf]
        field_simp
      · show (writeOutAt s 3 1 4 _ _).H 6 = _
        rw [w6, c6]
        simp [blockOf]
        field_simp
    · intro i hi
      exact hYhat i hi

/-- An exact fit of degree `0` has equal targets, hence no variation. -/
theorem exact_fit_degree_zero_var (n : Nat) (xs ys c : Nat → K)
    (hpoly : ∀ i, i < n →
      ys i = Finset.sum (Finset.range (0 + 1)) (fun j => c j * xs i ^ j)) :
    specVar n ys = 0 := by
  have hy : ∀ i, i < n → ys i = c 0 := by
    intro i hi
    rw [hpoly i hi]
    simp
  by_cases hn : n = 0
  · subst hn
    simp [specVar]
  have hn0 : (n : K) ≠ 0 := by exact_mod_cast hn
  have hmean : specMean n ys = c 0 := by
    unfold specMean
    rw [Finset.sum_congr rfl (fun i hi => hy i (Finset.mem_range.mp hi))]
    simp
    field_simp
  unfold specVar
  rw [hmean]
  apply Finset.sum_eq_zero
  intro i hi
  rw [hy i (Finset.mem_range.mp hi), sub_self]
  simp

/-- C1: for every block `X` (read as `n` rows by `d` columns) and every target block `Y`, when the
Cholesky factorization of `A = XᵗX` reports `INFO = 0` (the square root being exact on positive
numbers), the solver returns its blocks, and the coefficient block `B` obtained by the forward
solve `L Q = P` followed by the back solve `Lᵗ B = Q` satisfies the normal equations exactly:
row `i` of `XᵗX·B` equals entry `i` of `Xᵗy`, for every `i < d`. -/
theorem normal_equations_hold (sqrt : K → K) (hsqrt : ∀ x : K, 0 < x → sqrt x * sqrt x = x)
    (n d : Nat) (X Y junk : Mem K) (h : (normalSolve sqrt n d X Y junk).1 = 0) :
    ∃ sv : Solved K, (normalSolve sqrt n d X Y junk).2 = some sv ∧
      ∀ i, i < d →
        Finset.sum (Finset.range d) (fun c =>
          Finset.sum (Finset.range n) (fun l => X (l + i * n) * X (l + c * n)) * sv.B c)
        = Finset.sum (Finset.range n) (fun l => X (l + i * n) * Y l) := by
  rw [normalSolve_info] at h
  have h1 := normalSolve_ok sqrt n d X Y junk h
  have h2 := congrArg Prod.snd h1
  simp only at h2
  refine ⟨_, h2, fun i hi => ?_⟩
  obtain ⟨hA, hP, hmul, _⟩ := solved_matrix sqrt hsqrt n d X Y junk _ h2
  have h3 := congrFun hmul ⟨i, hi⟩
  rw [sqMat_mulVec_apply] at h3
  simp only [vecOf] at h3
  rw [formP_apply n d X Y junk i hi] at h3
  rw [← h3]
  apply Finset.sum_congr rfl
  intro c hc
  rw [formA_apply n d X junk i c hi (Finset.mem_range.mp hc)]

/-- C1, witness: the theorem applied to the blocks read from the three points `(0,0), (1,1), (2,2)`
with two columns, over the reals with the real square root; the factorization succeeds there. -/
theorem normal_equations_hold_witness :
    (normalSolve Real.sqrt 3 2 (load (numstab : ℝ) 3 2 lineRecs zeroHeap).1
      (load (numstab : ℝ) 3 2 lineRecs zeroHeap).2.1 zeroHeap).1 = 0 ∧
    ∃ sv : Solved ℝ,
      (normalSolve Real.sqrt 3 2 (load (numstab : ℝ) 3 2 lineRecs zeroHeap).1
        (load (numstab : ℝ) 3 2 lineRecs zeroHeap).2.1 zeroHeap).2 = some sv ∧
      ∀ i, i < 2 →
        Finset.sum (Finset.range 2) (fun c =>
          Finset.sum (Finset.range 3) (fun l =>
            (load (numstab : ℝ) 3 2 lineRecs zeroHeap).1 (l + i * 3)
              * (load (numstab : ℝ) 3 2 lineRecs zeroHeap).1 (l + c * 3)) * sv.B c)
        = Finset.sum (Finset.range 3) (fun l =>
            (load (numstab : ℝ) 3 2 lineRecs zeroHeap).1 (l + i * 3)
              * (load (numstab : ℝ) 3 2 lineRecs zeroHeap).2.1 l) :=
  ⟨line_example_solver,
    normal_equations_hold Real.sqrt real_sqrt_sq 3 2 _ _ zeroHeap line_example_solver⟩

/-- C3, the code at the failing input: degree `0`, the points `(0,0), (1,1), (2,2)`, with `Y` four
doubles after `X` (a block of three doubles under 16-byte chunks).  The stores `X[4]`, `X[5]` of
the fill loop replace `Y[0]`, `Y[1]`, and line 388 divides them by the scale factor a second
time, so `R²` is `-88209/78806` (about `-1.1193`) with `numstab = 100` and `0` with scale factor
`1`: it depends on the scale factor.  The coefficient is `5/3` in both runs. -/
theorem r_squared_changes_with_scale :
    (mainAt 4 Real.sqrt (numstab : ℝ) 0 3 lineRecs zeroHeap).report.map
        (fun rep => (rep.coef, rep.stats.r)) = some ([5 / 3], some (-88209 / 78806)) ∧
    (mainAt 4 Real.sqrt (1 : ℝ) 0 3 lineRecs zeroHeap).report.map
        (fun rep => (rep.coef, rep.stats.r)) = some ([5 / 3], some 0) := by
  constructor
  · obtain ⟨rep, hrep, hcoef, hstats⟩ := heap_example_run numstab (by norm_num [numstab])
    rw [hrep, Option.map_some', hcoef, hstats, rSquared_eq]
    norm_num [Finset.sum_range_succ, blockOf, fdiv, numstab]
  · obtain ⟨rep, hrep, hcoef, hstats⟩ := heap_example_run 1 (by norm_num)
    rw [hrep, Option.map_some', hcoef, hstats, rSquared_eq]
    norm_num [Finset.sum_range_succ, blockOf, fdiv]

/-- C4, the code at the failing input: degree `0`, the points `(0,0), (1,1), (2,2)`, with `Y` four
doubles after `X`.  The stores `X[4] = 100`, `X[5] = 200` of the fill loop replace `Y[0]`,
`Y[1]`, the solve runs on the targets `100, 200, 200`, and the coefficient written is `5/3`,
while the mean of the input targets is `1`. -/
theorem constant_fit_misses_mean :
    (mainAt 4 Real.sqrt (numstab : ℝ) 0 3 lineRecs zeroHeap).report.map (fun rep => rep.coef)
      = some [5 / 3] ∧
    specMean 3 (obsY (lineRecs : List (ℝ × ℝ))) = 1 := by
  constructor
  · obtain ⟨rep, hrep, hcoef, _⟩ := heap_example_run numstab (by norm_num [numstab])
    rw [hrep, Option.map_some', hcoef]
  · norm_num [specMean, Finset.sum_range_succ, obsY, lineRecs]

/-- C5: the value of `INFO` after `dpotrf_` decides the rest of the run.  When it is not zero the
exit status is `1`, the only numeric routines called are `dgemm_`, `dgemv_` and `dpotrf_`
(neither `dtrsm_` solve is performed) and nothing is reported; the two solves, the prediction
and the report happen exactly when `INFO = 0`, and then the exit status is `0`. -/
theorem cholesky_failure_aborts (sqrt : K → K) (s : K) (deg n : Nat) (recs : List (K × K))
    (junk : Mem K) :
    (main sqrt s deg n recs junk).INFO
      = (factor sqrt (deg + 1)
          (formA n (deg + 1) (load s n (deg + 1) recs junk).1 junk) junk).1 ∧
    (main sqrt s deg n recs junk).exit = (if (main sqrt s deg n recs junk).INFO = 0 then 0 else 1) ∧
    (main sqrt s deg n recs junk).calls
      = (if (main sqrt s deg n recs junk).INFO = 0
          then [Call.dgemm, Call.dgemv, Call.dpotrf, Call.dtrsm, Call.dtrsm, Call.dgemv]
          else [Call.dgemm, Call.dgemv, Call.dpotrf]) ∧
    (main sqrt s deg n recs junk).report.isSome
      = decide ((main sqrt s deg n recs junk).INFO = 0) := by
  refine ⟨main_INFO sqrt s deg n recs junk, ?_⟩
  by_cases h0 : (factor sqrt (deg + 1)
      (formA n (deg + 1) (load s n (deg + 1) recs junk).1 junk) junk).1 = 0
  · have h1 := normalSolve_ok sqrt n (deg + 1) (load s n (deg + 1) recs junk).1
      (load s n (deg + 1) recs junk).2.1 junk h0
    have h2 := congrArg Prod.snd h1
    simp only at h2
    rw [main_of_ok sqrt s deg n recs junk _ h2]
    simp
  · rw [main_of_fail sqrt s deg n recs junk h0]
    simp [h0]

/-- C7, the code at the failing input: for the points `(0,0), (1,1), (2,2)` with degree `1`, the raw
file holds the `x` values `0, 1, 2`, but column `1` of the design-matrix file holds `0, 1/100,
2/100`: the entry was divided by the scale factor twice (lines 388 and 393), not once. -/
theorem design_column_one_divided_twice :
    (main Real.sqrt (numstab : ℝ) 1 3 lineRecs zeroHeap).report.map
        (fun rep => (rep.out.raw, rep.out.designMx))
      = some ([(0, 0), (1, 1), (2, 2)], [[1, 0], [1, 1 / 100], [1, 2 / 100]]) := by
  obtain ⟨sv, hsv, _⟩ := main_solved Real.sqrt real_sqrt_sq (numstab : ℝ) 1 3 lineRecs zeroHeap
    line_example_INFO
  obtain ⟨rep, hrep, _, _, _, _, _, hraw, _, hD⟩ :=
    main_report Real.sqrt (numstab : ℝ) (by norm_num [numstab]) 1 3 lineRecs zeroHeap rfl sv hsv
  rw [hrep, Option.map_some', hraw, hD]
  simp [List.range_succ, obsX, obsY, lineRecs, numstab]

/-- C8, the code at the failing input: degree `0`, the points `(0,0), (1,1), (2,2)`, with `Y` four
doubles after `X`.  When lines 406-418 run, `Y` holds `1/100, 2/100, 2` and not the input
targets `0, 1, 2`: the run computes `μ = 203/300` and `R² = -88209/78806`, while the mean of the
input targets is `1` and `1 − SSE/Var` over the input targets and the reported predictions `5/3`
is `-2/3`. -/
theorem statistics_over_overwritten_targets :
    (mainAt 4 Real.sqrt (numstab : ℝ) 0 3 lineRecs zeroHeap).report.map
        (fun rep => (rep.stats.mu, rep.stats.r)) = some (203 / 300, some (-88209 / 78806)) ∧
    specMean 3 (obsY (lineRecs : List (ℝ × ℝ))) = 1 ∧
    specR2 3 (fun _ => 5 / 3) (obsY (lineRecs : List (ℝ × ℝ))) = some (-2 / 3) := by
  refine ⟨?_, ?_, ?_⟩
  · obtain ⟨rep, hrep, _, hstats⟩ := heap_example_run numstab (by norm_num [numstab])
    rw [hrep, Option.map_some', hstats, rSquared_eq]
    norm_num [Finset.sum_range_succ, blockOf, fdiv, numstab]
  · norm_num [specMean, Finset.sum_range_succ, obsY, lineRecs]
  · norm_num [specR2, specVar, specSSE, specMean, Finset.sum_range_succ, obsY, lineRecs]

/-- C9, the code at the failing input: with degree `0` and one record `(2,3)` the block `X` has `n*d
= 1` element, yet after the fill loop index `1` holds `pow(2,1)*100 = 200` (the heap held `0`
there): the loop `j < d+1` stored a column past the allocated block. -/
theorem fill_loop_stores_past_block :
    allocatedX 1 1 = 1 ∧
    (load (numstab : ℝ) 1 1 [(2, 3)] zeroHeap).1 1 = 200 ∧
    (zeroHeap : Mem ℝ) 1 = 0 := by
  refine ⟨rfl, ?_, rfl⟩
  have := load_X (numstab : ℝ) 1 1 [(2, 3)] zeroHeap rfl 0 1 (by omega) (by omega)
  simp only [obsX, numstab, List.getD_cons_zero] at this
  exact this.trans (by norm_num)

/-- C10: after the zeroing step, for every row `i < d` and column `j < d` the entry stored at `L[i +
d*j]` is `0` when it lies strictly above the diagonal (`i < j`) and is exactly the value the
factorization left there otherwise. -/
theorem upper_triangle_zeroed (d : Nat) (L : Mem K) (i j : Nat) (hi : i < d) (hj : j < d) :
    zeroAbove d L (i + d * j) = if i < j then 0 else L (i + d * j) := by
  rw [Nat.mul_comm d j]
  exact zeroAbove_entry d L i j hi hj

/-- C10, witness: the theorem for order `2` at row `0`, column `1`, on the block holding `idx + 1`
at index `idx`. -/
theorem upper_triangle_zeroed_witness :
    (0 < 2 ∧ 1 < 2) ∧
    zeroAbove 2 (fun idx => (idx : ℚ) + 1) (0 + 2 * 1)
      = (if 0 < 1 then 0 else (fun idx => (idx : ℚ) + 1) (0 + 2 * 1)) :=
  ⟨⟨by decide, by decide⟩, upper_triangle_zeroed 2 (fun idx => (idx : ℚ) + 1) 0 1
    (by decide) (by decide)⟩

end FitPolynomial
